import Mathlib

/-!
Request composition in `http-client`.

A shallow embedding of the request builder (`http-client.go`) and of the body
encoders (`body.go`), together with the parts of the Go standard library they
call (`net/textproto` header canonicalisation, `net/http.Header`,
`net/url.Values`, `io.Copy`).

Conventions.
* A Go `string` is a sequence of bytes: `GoString := List Nat`.
* A Go map is an association list; the operations never create a second entry
  for a key that is already bound.
* Objects reached through a reference (header maps, the backing arrays of
  slices, readers) live in an explicit `World`, next to the traces of what the
  package did outside (files opened, boundaries drawn, `range` loops run).
* Behaviour of the libraries and of the runtime that the code only passes
  through is a field of `Env`.
* The order of a `range` over a map is not fixed: the n-th loop visits the
  entries by increasing `Env.mapRank n`, and the statements hold for every
  `Env`.

The verb methods (`Get`, `Post`, ...) with `setPath`, which none of the
statements below involves, are left out.
-/

namespace http_client

/-! ## Strings and errors -/

/-- A Go string, as its sequence of bytes. -/
abbrev GoString := List Nat

/-- The bytes of an ASCII literal. -/
def str (s : String) : GoString := s.toList.map Char.toNat

/-- Go `error` values met by the package. -/
inductive GoError where
  /-- An error built by `fmt.Errorf`, identified by its message. -/
  | errorf (msg : GoString)
  /-- The `url.EscapeError` for the offending fragment. -/
  | escape (frag : GoString)
  /-- An error produced by a collaborator outside the package (I/O, transport,
  serialisers), identified by a code. -/
  | lib (code : Nat)
  /-- The error of `http.NewRequest` for a method that is not a token. -/
  | invalidMethod (method : GoString)
  deriving DecidableEq

/-! ## Go maps with string keys -/

/-- A Go `map[string]V`. -/
abbrev GoMap (V : Type) := List (GoString × V)

namespace GoMap

variable {V : Type}

/-- The map index expression `m[k]` with the comma-ok result. -/
def get : GoMap V → GoString → Option V
  | [], _ => none
  | (k', v) :: rest, k => if k' = k then some v else get rest k

/-- The assignment `m[k] = v`. -/
def put : GoMap V → GoString → V → GoMap V
  | [], k, v => [(k, v)]
  | (k', v') :: rest, k, v => if k' = k then (k, v) :: rest else (k', v') :: put rest k v

/-- The builtin `delete(m, k)`. -/
def delete (m : GoMap V) (k : GoString) : GoMap V :=
  m.filter (fun e => !decide (e.1 = k))

/-- The keys bound in the map. -/
def keys (m : GoMap V) : List GoString := m.map Prod.fst

end GoMap

/-! ## `net/textproto`: canonical header keys -/

/-- The token bytes of RFC 7230 (`validHeaderFieldByte`). -/
def validHeaderFieldByte (c : Nat) : Bool :=
  (48 ≤ c && c ≤ 57) || (97 ≤ c && c ≤ 122) || (65 ≤ c && c ≤ 90) ||
    [33, 35, 36, 37, 38, 39, 42, 43, 45, 46, 94, 95, 96, 124, 126].contains c

/-- The canonicalising loop of `canonicalMIMEHeaderKey`: upper case at the start
and after each dash, lower case elsewhere. -/
def canonLoop : Bool → GoString → GoString
  | _, [] => []
  | upper, c :: cs =>
    let c' :=
      if upper && (97 ≤ c && c ≤ 122) then c - 32
      else if !upper && (65 ≤ c && c ≤ 90) then c + 32
      else c
    c' :: canonLoop (c' == 45) cs

/-- The function `textproto.CanonicalMIMEHeaderKey`: a key holding a space or any
other byte that is not a token byte is returned unchanged. -/
def CanonicalMIMEHeaderKey (s : GoString) : GoString :=
  if s.all validHeaderFieldByte then canonLoop true s else s

/-! ## `net/http.Header` -/

/-- The type `http.Header`, a `map[string][]string`. -/
abbrev Header := GoMap (List GoString)

namespace Header

/-- The method `Header.Set`: `h[canonical key] = []string{value}`. -/
def Set (h : Header) (key value : GoString) : Header :=
  GoMap.put h (CanonicalMIMEHeaderKey key) [value]

/-- The method `Header.Add`: `h[key] = append(h[key], value)` on the canonical key. -/
def Add (h : Header) (key value : GoString) : Header :=
  GoMap.put h (CanonicalMIMEHeaderKey key)
    (((GoMap.get h (CanonicalMIMEHeaderKey key)).getD []) ++ [value])

/-- The method `Header.Get`: the first value under the canonical key, or `""`. -/
def Get (h : Header) (key : GoString) : GoString :=
  match GoMap.get h (CanonicalMIMEHeaderKey key) with
  | some (v :: _) => v
  | _ => []

/-- The method `Header.Del`. -/
def Del (h : Header) (key : GoString) : Header :=
  GoMap.delete h (CanonicalMIMEHeaderKey key)

end Header

/-! ## `net/url`: query values -/

/-- The type `url.Values`, a `map[string][]string`. -/
abbrev Values := GoMap (List GoString)

/-- The method `Values.Add`: `v[key] = append(v[key], value)`; keys are not
canonicalised. -/
def Values.Add (v : Values) (key value : GoString) : Values :=
  GoMap.put v key (((GoMap.get v key).getD []) ++ [value])

/-- Upper-case hexadecimal digit of a nibble. -/
def upperhex (n : Nat) : Nat := if n < 10 then 48 + n else 55 + n

/-- The predicate `shouldEscape(c, encodeQueryComponent)`: only letters, digits and
`-`, `_`, `.`, `~` stay as they are. -/
def shouldEscape (c : Nat) : Bool :=
  !((97 ≤ c && c ≤ 122) || (65 ≤ c && c ≤ 90) || (48 ≤ c && c ≤ 57) ||
    c == 45 || c == 95 || c == 46 || c == 126)

/-- The function `url.QueryEscape`. -/
def QueryEscape : GoString → GoString
  | [] => []
  | c :: cs =>
    if c = 32 then 43 :: QueryEscape cs
    else if shouldEscape c then 37 :: upperhex (c / 16 % 16) :: upperhex (c % 16) :: QueryEscape cs
    else c :: QueryEscape cs

/-- Bytewise string comparison `a <= b`. -/
def strLe : GoString → GoString → Bool
  | [], _ => true
  | _ :: _, [] => false
  | a :: as, b :: bs => a < b || (a == b && strLe as bs)

/-- The sorted keys (`slices.Sort(keys)`); the sorted arrangement of a list does
not depend on the sorting algorithm. -/
def sortKeys (ks : List GoString) : List GoString :=
  ks.insertionSort (fun a b => strLe a b = true)

/-- The inner loop of `Values.Encode` for one key: each value is written as
`key=value`, preceded by `&` when the buffer is not empty. -/
def encodeKey (keyEscaped : GoString) : GoString → List GoString → GoString
  | buf, [] => buf
  | buf, v :: vs =>
    encodeKey keyEscaped
      ((if buf.length > 0 then buf ++ [38] else buf) ++ keyEscaped ++ [61] ++ QueryEscape v) vs

/-- The outer loop of `Values.Encode` over the sorted keys. -/
def encodeKeys (v : Values) : GoString → List GoString → GoString
  | buf, [] => buf
  | buf, k :: ks => encodeKeys v (encodeKey (QueryEscape k) buf ((GoMap.get v k).getD [])) ks

/-- The helper `ishex`. -/
def ishex (c : Nat) : Bool :=
  (48 ≤ c && c ≤ 57) || (97 ≤ c && c ≤ 102) || (65 ≤ c && c ≤ 70)

/-- The helper `unhex`. -/
def unhex (c : Nat) : Nat :=
  if 48 ≤ c && c ≤ 57 then c - 48
  else if 97 ≤ c && c ≤ 102 then c - 97 + 10
  else if 65 ≤ c && c ≤ 70 then c - 65 + 10
  else 0

/-- The function `url.QueryUnescape`: `%XX` becomes a byte, `+` a space; a `%`
not followed by two hexadecimal digits is an `EscapeError` on at most three
bytes. -/
def QueryUnescape : GoString → Except GoError GoString
  | [] => .ok []
  | c :: rest =>
    if c = 37 then
      match rest with
      | a :: b :: rest2 =>
        if ishex a && ishex b then
          match QueryUnescape rest2 with
          | .ok t => .ok ((unhex a * 16 + unhex b) :: t)
          | .error e => .error e
        else .error (.escape [37, a, b])
      | _ => .error (.escape (37 :: rest))
    else
      match QueryUnescape rest with
      | .ok t => .ok ((if c = 43 then 32 else c) :: t)
      | .error e => .error e

/-- The function `strings.Cut` for a one-byte separator, without the flag. -/
def cut (sep : Nat) : GoString → GoString × GoString
  | [] => ([], [])
  | c :: cs => if c = sep then ([], cs) else ((c :: (cut sep cs).1), (cut sep cs).2)

/-- The pieces that the loop `for query != "" { key, query, _ = Cut(query, "&") }`
of `parseQuery` visits. -/
def segments : GoString → List GoString
  | [] => []
  | c :: cs =>
    if c = 38 then [] :: segments cs
    else
      match segments cs with
      | [] => [[c]]
      | seg :: segs => (c :: seg) :: segs

/-- One round of the loop of `parseQuery`. -/
def parseSegment (st : Values × Option GoError) (seg : GoString) : Values × Option GoError :=
  if seg.contains 59 then
    (st.1, some (.errorf (str "invalid semicolon separator in query")))
  else if seg = [] then st
  else
    match QueryUnescape (cut 61 seg).1 with
    | .error e1 => (st.1, if st.2 = none then some e1 else st.2)
    | .ok key =>
      match QueryUnescape (cut 61 seg).2 with
      | .error e1 => (st.1, if st.2 = none then some e1 else st.2)
      | .ok value => (Values.Add st.1 key value, st.2)

/-- The function `url.ParseQuery` (semicolons are rejected, as from Go 1.17 on):
the map of all valid parameters, and the first error, if any. -/
def ParseQuery (query : GoString) : Values × Option GoError :=
  (segments query).foldl parseSegment ([], none)


/-! ## Values, memory and the outside world -/

/-- A Go `interface{}` value handed to the package by the caller. The package
never inspects it; `Env.queryPairs` and `Env.jsonEncode` say what the
serialisers make of it. -/
inductive Value where
  | nil
  | ref (id : Nat)
  deriving DecidableEq

/-- A slice header of type `[]interface{}`: backing array, length, capacity. -/
structure Slice where
  ptr : Nat
  len : Nat
  cap : Nat
  deriving DecidableEq

/-- An `io.Reader`: the bytes still to be read and the error that ends the
stream (`none` for `io.EOF`). -/
structure Reader where
  data : GoString
  err : Option GoError
  deriving DecidableEq

/-- An `io.Writer`: the bytes written so far, and the error with which every
`Write` fails, if any (a `bytes.Buffer` has none). -/
structure Writer where
  buf : GoString
  failWith : Option GoError
  deriving DecidableEq

/-- The type `url.URL`. -/
structure URL where
  Scheme : GoString
  Opaque : GoString
  User : GoString
  Host : GoString
  Path : GoString
  RawPath : GoString
  ForceQuery : Bool
  RawQuery : GoString
  Fragment : GoString
  RawFragment : GoString
  deriving DecidableEq

/-- The part of `http.Response` used by the package. -/
structure Response where
  StatusCode : Int
  Body : Reader
  deriving DecidableEq

/-- The part of `http.Request` set up by `http.NewRequest` and the package. -/
structure Request where
  Method : GoString
  URL : URL
  Header : Header
  Body : GoString
  ContentLength : Nat
  Host : GoString
  deriving DecidableEq

/-- The outcomes of `http.Client.Do`: a response, an error, or an error together
with a response. -/
inductive DoResult where
  | ok (resp : Response)
  | failed (err : GoError)
  | failedWith (resp : Response) (err : GoError)
  deriving DecidableEq

/-- The struct `HTTPTimeout` (durations in nanoseconds). -/
structure HTTPTimeout where
  ConnectTimeout : Nat
  ReadTimeout : Nat
  WriteTimeout : Nat
  ResponseHeaderTimeout : Nat
  MaxTimeout : Nat
  TLSHandshakeTimeout : Nat
  deriving DecidableEq

/-- The struct `Retry`. -/
structure Retry where
  Times : Int
  CheckStatusCode : Bool
  deriving DecidableEq

/-- The struct `Config`; of `TLSClientConfig` only `InsecureSkipVerify` is kept
(`none` for a nil pointer). -/
structure Config where
  HTTPTimeout : HTTPTimeout
  UseProxy : Bool
  ProxyHost : GoString
  IsAuthProxy : Bool
  ProxyUser : GoString
  ProxyPassword : GoString
  ReUseTCP : Bool
  Retry : Retry
  TLSClientConfig : Option Bool
  deriving DecidableEq

/-- Behaviour of collaborators outside the package that the code passes
through. -/
structure Env where
  /-- Capacity chosen by the runtime when `append` has to grow a slice of the
  given capacity to hold the given number of elements. -/
  sliceCap : Nat → Nat → Nat
  /-- The order of the n-th `range` over a map: entries are visited by
  increasing rank of their keys. -/
  mapRank : Nat → GoString → Nat
  /-- The function `url.Parse`. -/
  urlParse : GoString → Except GoError URL
  /-- The method `URL.String`. -/
  urlString : URL → GoString
  /-- The helper `removeEmptyPort` of `net/http`. -/
  removeEmptyPort : GoString → GoString
  /-- The key/value pairs, in field order, that go-querystring derives from a
  value, or its error. -/
  queryPairs : Value → Except GoError (List (GoString × GoString))
  /-- The bytes `json.Encoder.Encode` produces for a value under the given
  `escapeHTML` setting, or its error. -/
  jsonEncode : Bool → Value → Except GoError GoString
  /-- The function `os.OpenFile(path, O_RDONLY, ...)`: the opened file, or the error. -/
  openFile : GoString → Except GoError Reader
  /-- The n-th boundary drawn by `multipart.NewWriter`. -/
  boundary : Nat → GoString
  /-- The bytes `CreateFormFile(fieldname, filename)` writes for a boundary. -/
  formFileHeader : GoString → GoString → GoString → GoString
  /-- The bytes `WriteField(fieldname, value)` writes for a boundary. -/
  formField : GoString → GoString → GoString → GoString
  /-- The bytes `multipart.Writer.Close` writes for a boundary. -/
  closing : GoString → GoString
  /-- The method `FormDataContentType` for a boundary. -/
  formDataContentType : GoString → GoString
  /-- The method `http.Client.Do` of the client with the given handle. -/
  Do : Nat → Request → DoResult

/-- The mutable state around the builders. -/
structure World where
  /-- Backing arrays of the `[]string` values stored in header maps. -/
  strs : List (List GoString)
  /-- The `http.Header` map objects; a key is bound to the address in `strs` of
  its value slice. -/
  maps : List (GoMap Nat)
  /-- Backing arrays of `[]interface{}` slices; the length of a list is the
  capacity of the array. -/
  arrs : List (List Value)
  /-- The `http.Client` objects, each with the configuration of its transport. -/
  clients : List Config
  /-- The `io.Reader` objects handed to `NewOriginalBody`. -/
  readers : List Reader
  /-- The paths passed to `os.OpenFile` so far. -/
  opened : List GoString
  /-- The number of multipart boundaries drawn so far. -/
  boundaries : Nat
  /-- The number of `range` loops over maps run so far. -/
  ranges : Nat
  deriving DecidableEq

/-- The entries of a map in the order in which the next `range` visits them,
and the world after the loop. -/
def rangeMap {V : Type} (env : Env) (W : World) (m : GoMap V) : List (GoString × V) × World :=
  (m.insertionSort (fun a b => env.mapRank W.ranges a.1 ≤ env.mapRank W.ranges b.1),
    { W with ranges := W.ranges + 1 })

/-- The method `Values.Encode`: the keys are collected by a `range` over the map,
sorted, and written out with their values. -/
def Values.Encode (env : Env) (W : World) (v : Values) : GoString × World :=
  if v.length = 0 then ([], W)
  else (encodeKeys v [] (sortKeys ((rangeMap env W v).1.map Prod.fst)), (rangeMap env W v).2)

/-- The header map at an address, each key with the contents of its value
slice. -/
def World.headerOf (W : World) (addr : Nat) : Header :=
  ((W.maps[addr]?).getD []).map (fun e => (e.1, (W.strs[e.2]?).getD []))

/-- The elements of a `[]interface{}` slice. -/
def World.queryOf (W : World) (s : Slice) : List Value :=
  ((W.arrs[s.ptr]?).getD []).take s.len

/-- The array cells after storing `xs` from index `i` on. -/
def writeAt (cells : List Value) (i : Nat) (xs : List Value) : List Value :=
  cells.take i ++ xs ++ cells.drop (i + xs.length)

/-- The builtin `append(s, xs...)` on `[]interface{}`: nothing to append returns
`s`; spare capacity is written in place; otherwise the elements move to a new
array. -/
def appendValues (env : Env) (W : World) (s : Slice) (xs : List Value) : World × Slice :=
  if xs = [] then (W, s)
  else if s.len + xs.length ≤ s.cap then
    ({ W with arrs := W.arrs.set s.ptr (writeAt ((W.arrs[s.ptr]?).getD []) s.len xs) },
      { s with len := s.len + xs.length })
  else
    ({ W with arrs := W.arrs ++
        [W.queryOf s ++ xs ++ List.replicate
          (max (s.len + xs.length) (env.sliceCap s.cap (s.len + xs.length)) - (s.len + xs.length))
          Value.nil] },
      { ptr := W.arrs.length, len := s.len + xs.length,
        cap := max (s.len + xs.length) (env.sliceCap s.cap (s.len + xs.length)) })

/-- The method `Header.Set` on the header map at an address:
`h[canonical key] = []string{value}` with a new one-element slice. -/
def World.headerSet (W : World) (addr : Nat) (key value : GoString) : World :=
  { W with
    strs := W.strs ++ [[value]]
    maps := W.maps.set addr
      (GoMap.put ((W.maps[addr]?).getD []) (CanonicalMIMEHeaderKey key) W.strs.length) }

/-! ## `const.go` -/

def GET : GoString := str "GET"
def POST : GoString := str "POST"
def PUT : GoString := str "PUT"
def HEAD : GoString := str "HEAD"
def PATCH : GoString := str "PATCH"
def DELETE : GoString := str "DELETE"
def OPTIONS : GoString := str "OPTIONS"
def ContentTypeJson : GoString := str "application/json"
def ContentType : GoString := str "Content-Type"
def ContentTypeForm : GoString := str "application/x-www-form-urlencoded"

/-! ## `conf.go` -/

/-- The function `NewConfig` (one second is `10^9` nanoseconds). -/
def NewConfig : Config :=
  { HTTPTimeout :=
      { ConnectTimeout := 3 * 1000000000
        ReadTimeout := 3 * 1000000000
        WriteTimeout := 3 * 1000000000
        ResponseHeaderTimeout := 5 * 1000000000
        MaxTimeout := 300 * 1000000000
        TLSHandshakeTimeout := 5 * 1000000000 }
    UseProxy := false
    ProxyHost := []
    IsAuthProxy := false
    ProxyUser := []
    ProxyPassword := []
    ReUseTCP := false
    Retry := { Times := 3, CheckStatusCode := true }
    TLSClientConfig := some true }

/-- The zero value of `Config`. -/
def Config.zero : Config :=
  { HTTPTimeout := ⟨0, 0, 0, 0, 0, 0⟩
    UseProxy := false
    ProxyHost := []
    IsAuthProxy := false
    ProxyUser := []
    ProxyPassword := []
    ReUseTCP := false
    Retry := { Times := 0, CheckStatusCode := false }
    TLSClientConfig := none }

/-! ## `body.go` -/

/-- The implementations of the interface `Body`. -/
inductive Body where
  /-- The struct `bodyOriginal`; `body` is the handle of the reader. -/
  | original (body : Nat)
  /-- The struct `bodyProviderJson`. -/
  | json (body : Value) (escapeHTML : Bool)
  /-- The struct `bodyProviderForm`. -/
  | form (body : Value)
  /-- The struct `bodyProviderFile`. -/
  | file (body : Value) (fileName : GoString) (fieldName : GoString)
  deriving DecidableEq

def NewOriginalBody (body : Nat) : Body := .original body

/-- The function `NewJsonBody(body, escapeHTML...)`. -/
def NewJsonBody (body : Value) (escapeHTML : List Bool) : Body :=
  .json body (decide (escapeHTML.length > 0) && escapeHTML.headD false)

def NewFormBody (body : Value) : Body := .form body

/-- The function `NewFileBody(fileName, fieldName, body...)`. -/
def NewFileBody (fileName fieldName : GoString) (body : List Value) : Body :=
  .file (if body.length > 0 then body.headD Value.nil else Value.nil) fileName fieldName

/-- The method `Write` of a writer. -/
def Writer.Write (w : Writer) (p : GoString) : Writer × Option GoError :=
  match w.failWith with
  | some e => (w, some e)
  | none => ({ w with buf := w.buf ++ p }, none)

/-- The function `io.Copy(dst, src)`, the pending data being read as one chunk:
nothing is written when there is nothing to read; a failed write ends the copy
with its error; otherwise the error of the reader, unless it is `io.EOF`. -/
def ioCopy (dst : Writer) (src : Reader) : (Writer × Reader) × Option GoError :=
  if src.data = [] then ((dst, src), src.err)
  else
    match dst.Write src.data with
    | (dst1, some e) => ((dst1, { src with data := [] }), some e)
    | (dst1, none) => ((dst1, { src with data := [] }), src.err)

/-- The function `query.Values` of go-querystring: a `url.Values` filled by one
`Add` per pair. -/
def goqueryValues (env : Env) (v : Value) : Except GoError Values :=
  match env.queryPairs v with
  | .error e => .error e
  | .ok pairs => .ok (pairs.foldl (fun m kv => Values.Add m kv.1 kv.2) [])

/-- The method `Values.Get`. -/
def Values.Get (v : Values) (key : GoString) : GoString :=
  match GoMap.get v key with
  | some (x :: _) => x
  | _ => []

/-- The deferred `writer.Close()`, its error dropped. -/
def closeMultipart (env : Env) (b : GoString) (sink : Writer) : Writer :=
  (sink.Write (env.closing b)).1

/-- The loop `for k, _ := range values { err = writer.WriteField(k, values.Get(k)) ... }`. -/
def writeFields (env : Env) (b : GoString) (values : Values) :
    Writer → List GoString → Writer × Option GoError
  | sink, [] => (sink, none)
  | sink, k :: ks =>
    match sink.Write (env.formField b k (Values.Get values k)) with
    | (sink1, some e) => (sink1, some e)
    | (sink1, none) => writeFields env b values sink1 ks

/-- The method `Encode(receiver)` of each implementation of `Body`: the
content-type or the error, the receiver and the world afterwards. -/
def Body.Encode (env : Env) (W : World) (p : Body) (receiver : Writer) :
    Except GoError GoString × Writer × World :=
  match p with
  | .original body =>
    match ioCopy receiver ((W.readers[body]?).getD ⟨[], none⟩) with
    | ((dst, src), some e) => (.error e, dst, { W with readers := W.readers.set body src })
    | ((dst, src), none) => (.ok [], dst, { W with readers := W.readers.set body src })
  | .json body escapeHTML =>
    match env.jsonEncode escapeHTML body with
    | .error e => (.error e, receiver, W)
    | .ok bytes =>
      match receiver.Write bytes with
      | (dst, some e) => (.error e, dst, W)
      | (dst, none) => (.ok ContentTypeJson, dst, W)
  | .form body =>
    match goqueryValues env body with
    | .error e => (.error e, receiver, W)
    | .ok values =>
      -- io.Copy(receiver, strings.NewReader(values.Encode()))
      match ioCopy receiver ⟨(Values.Encode env W values).1, none⟩ with
      | ((dst, _), some e) => (.error e, dst, (Values.Encode env W values).2)
      | ((dst, _), none) => (.ok ContentTypeForm, dst, (Values.Encode env W values).2)
  | .file body fileName fieldName =>
    if fileName = [] then (.error (.errorf (str "fileName not defined")), receiver, W)
    else if fieldName = [] then (.error (.errorf (str "fieldName not defined")), receiver, W)
    else
      -- file, err := os.OpenFile(p.fieldName, os.O_RDONLY, os.ModePerm)
      let W1 := { W with opened := W.opened ++ [fieldName] }
      match env.openFile fieldName with
      | .error e => (.error e, receiver, W1)
      | .ok opened =>
        -- writer := multipart.NewWriter(receiver)
        let b := env.boundary W1.boundaries
        let W2 := { W1 with boundaries := W1.boundaries + 1 }
        -- fw, err := writer.CreateFormFile(p.fieldName, p.fileName)
        match receiver.Write (env.formFileHeader b fieldName fileName) with
        | (r1, some e) => (.error e, closeMultipart env b r1, W2)
        | (r1, none) =>
          -- _, err = io.Copy(fw, file)
          match ioCopy r1 opened with
          | ((r2, _), some e) => (.error e, closeMultipart env b r2, W2)
          | ((r2, _), none) =>
            if body ≠ Value.nil then
              match goqueryValues env body with
              | .error e => (.error e, closeMultipart env b r2, W2)
              | .ok values =>
                match writeFields env b values r2 ((rangeMap env W2 values).1.map Prod.fst) with
                | (r3, some e) => (.error e, closeMultipart env b r3, (rangeMap env W2 values).2)
                | (r3, none) =>
                  (.ok (env.formDataContentType b), closeMultipart env b r3,
                    (rangeMap env W2 values).2)
            else (.ok (env.formDataContentType b), closeMultipart env b r2, W2)

/-! ## `http-client.go` -/

/-- The struct `HttpClient`; `client` is the handle of the shared `http.Client`,
`header` the address of the header map. -/
structure HttpClient where
  client : Nat
  config : Config
  method : GoString
  rawURL : GoString
  header : Nat
  query : Slice
  body : Option Body
  resp : Option Response
  deriving DecidableEq

/-- The function `New(cfg...)`: a new client for the configuration and a new,
empty header map. -/
def New (W : World) (cfg : List Config) : World × HttpClient :=
  let config := if cfg.length > 0 then cfg.headD NewConfig else NewConfig
  ({ W with clients := W.clients ++ [config], maps := W.maps ++ [[]] },
    { client := W.clients.length
      config := config
      method := []
      rawURL := []
      header := W.maps.length
      query := ⟨0, 0, 0⟩
      body := none
      resp := none })

/-- The method `(*HttpClient).New`: the headers are copied pair by pair into a
new map, the query sources are appended to an empty slice. -/
def HttpClient.New (env : Env) (W : World) (h : HttpClient) : World × HttpClient :=
  -- headerCopy := make(http.Header)
  let W1 := { W with maps := W.maps ++ [[]] }
  -- for k, v := range h.header { headerCopy[k] = v }
  let es := (rangeMap env W1 ((W1.maps[h.header]?).getD [])).1
  let W2 := { W1 with
    ranges := W1.ranges + 1
    maps := W1.maps.set W.maps.length (es.foldl (fun m e => GoMap.put m e.1 e.2) []) }
  -- append([]interface{}{}, h.query...)
  let q := appendValues env W2 ⟨0, 0, 0⟩ (W2.queryOf h.query)
  (q.1,
    { client := h.client
      config := Config.zero
      method := h.method
      rawURL := h.rawURL
      header := W.maps.length
      query := q.2
      body := h.body
      resp := none })

def HttpClient.setMethod (h : HttpClient) (method : GoString) : HttpClient :=
  { h with method := method }

def HttpClient.BaseURL (h : HttpClient) (rawUrl : GoString) : HttpClient :=
  { h with rawURL := rawUrl }

/-- The method `SetHeader`: `h.header.Set(key, value)`. -/
def HttpClient.SetHeader (W : World) (h : HttpClient) (key value : GoString) :
    World × HttpClient :=
  (W.headerSet h.header key value, h)

/-- One character of the standard base64 alphabet. -/
def b64char (n : Nat) : Nat :=
  if n < 26 then 65 + n
  else if n < 52 then 97 + (n - 26)
  else if n < 62 then 48 + (n - 52)
  else if n = 62 then 43
  else 47

/-- The method `base64.StdEncoding.EncodeToString`. -/
def base64Encode : GoString → GoString
  | a :: b :: c :: rest =>
    b64char (a / 4 % 64) :: b64char ((a % 4) * 16 + b / 16 % 16) ::
      b64char ((b % 16) * 4 + c / 64 % 4) :: b64char (c % 64) :: base64Encode rest
  | [a, b] => [b64char (a / 4 % 64), b64char ((a % 4) * 16 + b / 16 % 16), b64char ((b % 16) * 4), 61]
  | [a] => [b64char (a / 4 % 64), b64char ((a % 4) * 16), 61, 61]
  | [] => []

def genBasicAuth (username password : GoString) : GoString :=
  base64Encode (username ++ str ":" ++ password)

def HttpClient.SetBasicAuth (W : World) (h : HttpClient) (username password : GoString) :
    World × HttpClient :=
  h.SetHeader W (str "Authorization") (str "Basic " ++ genBasicAuth username password)

def HttpClient.SetBody (h : HttpClient) (body : Option Body) : HttpClient :=
  { h with body := body }

/-- The method `AddQueries(params...)`. -/
def HttpClient.AddQueries (env : Env) (W : World) (h : HttpClient) (params : List Value) :
    World × HttpClient :=
  if params.length > 0 then
    ((appendValues env W h.query params).1, { h with query := (appendValues env W h.query params).2 })
  else (W, h)

/-- The loops `for key, values := range queryValues { for _, value := range values
{ urlValues.Add(key, value) } }` of `genQuery`, over the visited entries. -/
def addEntries (urlValues : Values) (es : List (GoString × List GoString)) : Values :=
  es.foldl (fun acc e => e.2.foldl (fun acc2 value => Values.Add acc2 e.1 value) acc) urlValues

/-- The loop `for _, param := range params` of `genQuery`. -/
def mergeParams (env : Env) : World → Values → List Value → Except GoError Values × World
  | W, urlValues, [] => (.ok urlValues, W)
  | W, urlValues, param :: rest =>
    match goqueryValues env param with
    | .error e => (.error e, W)
    | .ok queryValues =>
      mergeParams env (rangeMap env W queryValues).2
        (addEntries urlValues (rangeMap env W queryValues).1) rest

/-- The function `genQuery(reqURL, params)`: the URL with its new `RawQuery`, or
the error (the URL is then left as it was). -/
def genQuery (env : Env) (W : World) (reqURL : URL) (params : List Value) :
    Except GoError URL × World :=
  match ParseQuery reqURL.RawQuery with
  | (_, some e) => (.error e, W)
  | (urlValues, none) =>
    match mergeParams env W urlValues params with
    | (.error e, W1) => (.error e, W1)
    | (.ok merged, W1) =>
      (.ok { reqURL with RawQuery := (Values.Encode env W1 merged).1 },
        (Values.Encode env W1 merged).2)

/-- The function `setHeaders(req, headers)`, `headers` being the address of the
header map of the builder. -/
def setHeaders (env : Env) (W : World) (req : Request) (headers : Nat) : Request × World :=
  ({ req with
      Header := (rangeMap env W (W.headerOf headers)).1.foldl
        (fun hd e => e.2.foldl (fun hd2 value => Header.Add hd2 e.1 value) hd) req.Header },
    (rangeMap env W (W.headerOf headers)).2)

/-- The check `validMethod` of `net/http`: a non-empty token. -/
def validMethod (method : GoString) : Bool :=
  decide (method.length > 0) && method.all validHeaderFieldByte

/-- The function `http.NewRequest(method, url, body)` for a `*bytes.Buffer` body:
the header map of the new request is empty. -/
def NewRequest (env : Env) (method url body : GoString) : Except GoError Request :=
  if !validMethod (if method = [] then GET else method) then
    .error (.invalidMethod (if method = [] then GET else method))
  else
    match env.urlParse url with
    | .error e => .error e
    | .ok u =>
      .ok { Method := if method = [] then GET else method
            URL := { u with Host := env.removeEmptyPort u.Host }
            Header := []
            Body := body
            ContentLength := body.length
            Host := env.removeEmptyPort u.Host }

/-- The default `User-Agent` of `genRequest`. -/
def defaultUserAgent : GoString :=
  str "Mozilla/5.0 (Windows NT 10.0; Win64; x64) AppleWebKit/537.36 (KHTML, like Gecko) Chrome/72.0.3626.119 Safari/537.36"

/-- The statements `body := new(bytes.Buffer)` and, when a body is set,
`reqContentType, err = h.body.Encode(body)` of `genRequest`. -/
def encodeBody (env : Env) (W : World) (body : Option Body) :
    Except GoError GoString × Writer × World :=
  match body with
  | none => (.ok [], ⟨[], none⟩, W)
  | some p => p.Encode env W ⟨[], none⟩

/-- The header finalisation at the end of `genRequest`. -/
def finishHeaders (req : Request) (reqContentType : GoString) : Request :=
  let req1 :=
    if Header.Get req.Header (str "User-Agent") = [] then
      { req with Header := Header.Set req.Header (str "User-Agent") defaultUserAgent }
    else req
  if reqContentType ≠ [] then
    { req1 with Header := Header.Set req1.Header ContentType reqContentType }
  else { req1 with Header := Header.Del req1.Header ContentType }

/-- The method `genRequest`. -/
def HttpClient.genRequest (env : Env) (W : World) (h : HttpClient) :
    Except GoError Request × World :=
  match env.urlParse h.rawURL with
  | .error e => (.error e, W)
  | .ok reqURL =>
    match genQuery env W reqURL (W.queryOf h.query) with
    | (.error e, W1) => (.error e, W1)
    | (.ok reqURL1, W1) =>
      match encodeBody env W1 h.body with
      | (.error e, _, W2) => (.error e, W2)
      | (.ok reqContentType, body, W2) =>
        match NewRequest env h.method (env.urlString reqURL1) body.buf with
        | .error e => (.error e, W2)
        | .ok req =>
          (.ok (finishHeaders (setHeaders env W2 req h.header).1 reqContentType),
            (setHeaders env W2 req h.header).2)

/-- The method `Send(receiver...)`: the status code and the error, the builder
(with `resp`), the receivers and the world afterwards. -/
def HttpClient.Send (env : Env) (W : World) (h : HttpClient) (receiver : List Writer) :
    (Int × Option GoError) × HttpClient × List Writer × World :=
  match h.genRequest env W with
  | (.error e, W1) => ((500, some e), h, receiver, W1)
  | (.ok req, W1) =>
    match env.Do h.client req with
    | .failedWith resp err =>
      ((resp.StatusCode, some err), { h with resp := some resp }, receiver, W1)
    | .failed err => ((400, some err), { h with resp := none }, receiver, W1)
    | .ok resp =>
      match receiver with
      | [] => ((resp.StatusCode, none), { h with resp := some resp }, receiver, W1)
      | r :: rs =>
        match ioCopy r resp.Body with
        | ((r1, body1), some e) =>
          ((500, some e), { h with resp := some { resp with Body := body1 } }, r1 :: rs, W1)
        | ((r1, body1), none) =>
          ((resp.StatusCode, none), { h with resp := some { resp with Body := body1 } },
            r1 :: rs, W1)


/-! ## A concrete library, for runs on concrete inputs -/

/-- The empty world. -/
def World.empty : World :=
  { strs := [], maps := [], arrs := [], clients := [], readers := [], opened := [],
    boundaries := 0, ranges := 0 }

/-- What `url.Parse` returns on a URL of the shape `http://host/path?query` (no
fragment, no user, no escapes); any other input is rejected here. -/
def exampleParse (s : GoString) : Except GoError URL :=
  if s.take 7 = str "http://" then
    .ok { Scheme := str "http"
          Opaque := []
          User := []
          Host := (cut 47 (cut 63 (s.drop 7)).1).1
          Path := (cut 63 (s.drop 7)).1.drop (cut 47 (cut 63 (s.drop 7)).1).1.length
          RawPath := []
          ForceQuery := false
          RawQuery := (cut 63 (s.drop 7)).2
          Fragment := []
          RawFragment := [] }
  else .error (.lib 1)

/-- What `URL.String` returns on the URLs produced by `exampleParse`. -/
def exampleString (u : URL) : GoString :=
  u.Scheme ++ str "://" ++ u.Host ++ u.Path ++
    (if u.RawQuery = [] then [] else str "?" ++ u.RawQuery)

/-- A library in which value `ref 0` is a struct with the query field `a=1`,
value `ref 1` one with `b=2`, any other value is not a struct; the files
`a.txt` (holding `hello`) and nothing else exist; the transport cannot reach any
host. -/
def exampleEnv : Env :=
  { sliceCap := fun c _ => 2 * c
    mapRank := fun _ _ => 0
    urlParse := exampleParse
    urlString := exampleString
    removeEmptyPort := fun host => host
    queryPairs := fun v =>
      if v = Value.ref 0 then .ok [(str "a", str "1")]
      else if v = Value.ref 1 then .ok [(str "b", str "2")]
      else if v = Value.nil then .ok []
      else .error (.lib 2)
    jsonEncode := fun _ v => if v = Value.nil then .ok (str "null\n") else .error (.lib 3)
    openFile := fun path =>
      if path = str "a.txt" then .ok ⟨str "hello", none⟩ else .error (.lib 4)
    boundary := fun _ => str "xyz"
    formFileHeader := fun b field file =>
      str "--" ++ b ++ str "\r\nContent-Disposition: form-data; name=\"" ++ field ++
        str "\"; filename=\"" ++ file ++ str "\"\r\nContent-Type: application/octet-stream\r\n\r\n"
    formField := fun b k v =>
      str "\r\n--" ++ b ++ str "\r\nContent-Disposition: form-data; name=\"" ++ k ++
        str "\"\r\n\r\n" ++ v
    closing := fun b => str "\r\n--" ++ b ++ str "--\r\n"
    formDataContentType := fun b => str "multipart/form-data; boundary=" ++ b
    Do := fun _ _ => .failed (.lib 5) }

/-- The builder `New().BaseURL("http://h/a?c=3")` after
`SetHeader("content-type", "text/plain")`, `AddQueries(ref 0, ref 1)` and
`SetBody(NewOriginalBody(r))`, where `r` reads `x`; and the world it lives in. -/
def exampleState : World × HttpClient :=
  let s0 := New World.empty []
  let s1 := (s0.2.BaseURL (str "http://h/a?c=3")).SetHeader s0.1 (str "content-type")
    (str "text/plain")
  let s2 := s1.2.AddQueries exampleEnv s1.1 [.ref 0, .ref 1]
  ({ s2.1 with readers := [⟨str "x", none⟩] }, s2.2.SetBody (some (NewOriginalBody 0)))

/-! ## Auxiliary notions for the statements -/

/-- The values under a key after more values were appended to it: a key gets
bound only when there is something to append. -/
def appendGet (o : Option (List GoString)) (xs : List GoString) : Option (List GoString) :=
  if xs = [] then o else some (o.getD [] ++ xs)

/-- The values that the visited entries `es` hold for the key `k`, keys being
compared after `c`. -/
def valuesFor (c : GoString → GoString) (es : List (GoString × List GoString))
    (k : GoString) : List GoString :=
  (es.filter (fun e => decide (c e.1 = k))).flatMap (fun e => e.2)

/-- The header map at an address is a map as the builder makes them: no key is
bound twice, and every key is in canonical form. -/
def World.headerWF (W : World) (addr : Nat) : Prop :=
  (GoMap.keys ((W.maps[addr]?).getD [])).Nodup ∧
    ∀ k ∈ GoMap.keys ((W.maps[addr]?).getD []), CanonicalMIMEHeaderKey k = k

/-- Two worlds hold the same memory: header maps, their value slices and the
arrays of query sources. -/
def World.sameHeap (W W1 : World) : Prop :=
  W1.strs = W.strs ∧ W1.maps = W.maps ∧ W1.arrs = W.arrs

/-! ## Builders in memory -/

/-- The mutators of claim C1. -/
inductive Op where
  | setHeader (key value : GoString)
  | setBasicAuth (username password : GoString)
  | addQueries (params : List Value)
  deriving DecidableEq

/-- One call on a builder. -/
def HttpClient.apply (env : Env) (W : World) (h : HttpClient) : Op → World × HttpClient
  | .setHeader key value => h.SetHeader W key value
  | .setBasicAuth username password => h.SetBasicAuth W username password
  | .addQueries params => h.AddQueries env W params

/-- A sequence of calls on a builder, in order. -/
def HttpClient.applyAll (env : Env) (W : World) (h : HttpClient) : List Op → World × HttpClient
  | [] => (W, h)
  | op :: ops => HttpClient.applyAll env (h.apply env W op).1 (h.apply env W op).2 ops

/-- The memory a builder refers to has been allocated: its header map, the
value slices bound in it, and the array of its query slice (a slice without
capacity has no array). -/
def World.owns (W : World) (h : HttpClient) : Prop :=
  h.header < W.maps.length ∧
    (∀ e ∈ (W.maps[h.header]?).getD [], e.2 < W.strs.length) ∧
    h.query.len ≤ h.query.cap ∧
    (h.query.cap = 0 ∨ h.query.ptr < W.arrs.length)

/-- The header map at `addr` and the query slice `s` are not those of the
builder `o`. -/
def apart (addr : Nat) (s : Slice) (o : HttpClient) : Prop :=
  addr ≠ o.header ∧ (s.cap = 0 ∨ o.query.cap = 0 ∨ s.ptr ≠ o.query.ptr)

/-! ## Case-insensitive header names -/

/-- The ASCII lower-case form of a byte. -/
def asciiLower (c : Nat) : Nat := if 65 ≤ c ∧ c ≤ 90 then c + 32 else c

/-- Equality of two strings up to ASCII case. -/
def equalFoldASCII (a b : GoString) : Bool := a.map asciiLower == b.map asciiLower

/-- The value of the last call, in a sequence of `(key, value)` calls, whose key
satisfies `p`. -/
def lastValue (p : GoString → Bool) : List (GoString × GoString) → Option GoString
  | [] => none
  | (k, v) :: rest =>
    match lastValue p rest with
    | some w => some w
    | none => if p k then some v else none

/-- A sequence of `SetHeader(key, value)` calls on a builder, in order. -/
def HttpClient.SetHeaderAll (W : World) (h : HttpClient) :
    List (GoString × GoString) → World × HttpClient
  | [] => (W, h)
  | (key, value) :: rest =>
    HttpClient.SetHeaderAll (h.SetHeader W key value).1 (h.SetHeader W key value).2 rest

/-! ## The reference definition of the query merge

These definitions follow the words of the specification, not the code. -/

/-- Reference: the values a source (its key/value pairs, in field order) has
for a key. -/
def sourceValues (pairs : List (GoString × GoString)) (k : GoString) : List GoString :=
  (pairs.filter (fun p => decide (p.1 = k))).map Prod.snd

/-- Reference: the value list of a key in the merged map, the existing values
of the URL followed by the values of each source, in source order. -/
def mergedValues (existing : Values) (sources : List (List (GoString × GoString)))
    (k : GoString) : List GoString :=
  (GoMap.get existing k).getD [] ++ sources.flatMap (fun src => sourceValues src k)

/-- Reference: the merged map, which binds every key of the URL and of the
sources to its merged value list. -/
def mergedMap (existing : Values) (sources : List (List (GoString × GoString))) : Values :=
  ((GoMap.keys existing ++ sources.flatMap (fun src => src.map Prod.fst)).dedup).map
    (fun k => (k, mergedValues existing sources k))

/-- Reference: strings joined by `&`. -/
def joinAmp : List GoString → GoString
  | [] => []
  | [x] => x
  | x :: y :: rest => x ++ [38] ++ joinAmp (y :: rest)

/-- Reference: the key-sorted, percent-encoded serialisation of a map: one
`key=value` per value, keys in sorted order, values in their order. -/
def serializeSorted (m : Values) : GoString :=
  joinAmp ((sortKeys (GoMap.keys m)).flatMap
    (fun k => ((GoMap.get m k).getD []).map (fun v => QueryEscape k ++ [61] ++ QueryEscape v)))

/-- The URL `http://h/a?c=3`, as `url.Parse` returns it. -/
def exampleURL : URL :=
  { Scheme := str "http", Opaque := [], User := [], Host := str "h", Path := str "/a",
    RawPath := [], ForceQuery := false, RawQuery := str "c=3", Fragment := [], RawFragment := [] }

/-! ## Comparing outcomes of resolution -/

/-- Two requests have identical method, URL, body and headers (every key is
bound to the same values in both). -/
def Request.same (a b : Request) : Prop :=
  a.Method = b.Method ∧ a.URL = b.URL ∧ a.Body = b.Body ∧ a.ContentLength = b.ContentLength ∧
    a.Host = b.Host ∧ ∀ k, GoMap.get a.Header k = GoMap.get b.Header k

/-- Two outcomes of `genRequest` are the same error, or the same request. -/
def sameOutcome : Except GoError Request → Except GoError Request → Prop
  | .error e1, .error e2 => e1 = e2
  | .ok a, .ok b => a.same b
  | _, _ => False

/-- The body of the builder is unset, or one of the encoders that read nothing
but their value: JSON or form. -/
def deterministicBody : Option Body → Prop
  | none => True
  | some (.json _ _) => True
  | some (.form _) => True
  | some (.original _) => False
  | some (.file _ _ _) => False

/-- The example builder with the JSON body of the nil value instead of the raw
body. -/
def exampleJsonState : World × HttpClient :=
  (exampleState.1, exampleState.2.SetBody (some (NewJsonBody Value.nil [])))

/-- The example library with a transport that answers 200 with the body `ok`. -/
def exampleEnvUp : Env :=
  { exampleEnv with Do := fun _ _ => .ok ⟨200, ⟨str "ok", none⟩⟩ }

/-- The example builder after `SetHeader("user-agent", "curl/8")`. -/
def exampleAgentState : World × HttpClient :=
  exampleState.2.SetHeader exampleState.1 (str "user-agent") (str "curl/8")

/-- Calls made after a fork, in order, each on the origin (`false`) or on the
fork (`true`): the world and the two builders afterwards. -/
def applyBoth (env : Env) (W : World) (h f : HttpClient) :
    List (Bool × Op) → World × HttpClient × HttpClient
  | [] => (W, h, f)
  | (false, op) :: rest => applyBoth env (h.apply env W op).1 (h.apply env W op).2 f rest
  | (true, op) :: rest => applyBoth env (f.apply env W op).1 h (f.apply env W op).2 rest

/-- The world, the builder `h` and its fork after `h.New()` and then the calls
`pre`, each on `h` or on the fork. -/
def afterFork (env : Env) (W : World) (h : HttpClient) (pre : List (Bool × Op)) :
    World × HttpClient × HttpClient :=
  applyBoth env (h.New env W).1 h (h.New env W).2 pre

/-- A fresh builder after `AddQueries(ref 0)`, `AddQueries(ref 1)` and
`AddQueries(ref 2)`: with the example library its three sources lie in an array
of capacity four. -/
def exampleSpareState : World × HttpClient :=
  let s0 := New World.empty []
  let s1 := s0.2.AddQueries exampleEnv s0.1 [.ref 0]
  let s2 := s1.2.AddQueries exampleEnv s1.1 [.ref 1]
  s2.2.AddQueries exampleEnv s2.1 [.ref 2]

/-- A key matches a header name: up to ASCII case when the name is made of token
bytes only, exactly when the name holds a space or another byte that is not a
token byte. -/
def matchesName (key name : GoString) : Bool :=
  if name.all validHeaderFieldByte then equalFoldASCII key name else key == name

/-- The calls `SetHeader("x-token", "1")` and `SetHeader("X-TOKEN", "2")`. -/
def exampleTokenCalls : List (GoString × GoString) :=
  [(str "x-token", str "1"), (str "X-TOKEN", str "2")]

/-- The builder `New().BaseURL("http://h/a")` after the calls
`exampleTokenCalls`, and the world it lives in. -/
def exampleTokenState : World × HttpClient :=
  (((New World.empty []).2.SetHeaderAll (New World.empty []).1 exampleTokenCalls).1,
    (New World.empty []).2.BaseURL (str "http://h/a"))

/-- The calls `f.AddQueries(ref 7)` and then `h.SetHeader("x", "1")`, made after
a fork `f` of `h`. -/
def exampleInterleaved : List (Bool × Op) :=
  [(true, .addQueries [.ref 7]), (false, .setHeader (str "x") (str "1"))]

/-- The calls `AddQueries(ref 8)` and then `SetHeader("y", "2")`. -/
def exampleCalls : List Op :=
  [.addQueries [.ref 8], .setHeader (str "y") (str "2")]

/-! ## Lemmas on maps -/

namespace GoMap

variable {V : Type}

theorem get_put (m : GoMap V) (k k' : GoString) (v : V) :
    (m.put k v).get k' = if k = k' then some v else m.get k' := by
  induction m with
  | nil => simp [put, get]
  | cons e rest ih =>
    obtain ⟨a, b⟩ := e
    by_cases h1 : a = k
    · subst h1
      by_cases h2 : a = k' <;> simp [put, get, h2]
    · by_cases h2 : k = k'
      · subst h2
        simp [put, get, h1, ih]
      · by_cases h3 : a = k'
        · subst h3
          simp [put, get, h1, h2]
        · simp [put, get, h1, h2, h3, ih]

theorem get_delete (m : GoMap V) (k k' : GoString) :
    (m.delete k).get k' = if k = k' then none else m.get k' := by
  induction m with
  | nil => simp [delete, get]
  | cons e rest ih =>
    obtain ⟨a, b⟩ := e
    simp only [delete] at ih
    by_cases h1 : a = k
    · subst h1
      simp only [delete, List.filter, decide_True, Bool.not_true, get]
      rw [ih]
      by_cases h2 : a = k' <;> simp [h2]
    · simp only [delete, List.filter, h1, decide_False, Bool.not_false, get]
      rw [ih]
      by_cases h2 : a = k'
      · subst h2
        simp [Ne.symm h1]
      · simp [h2]

end GoMap

theorem canonical_ContentType : CanonicalMIMEHeaderKey ContentType = ContentType := by decide

theorem canonical_UserAgent : CanonicalMIMEHeaderKey (str "User-Agent") = str "User-Agent" := by
  decide

theorem UserAgent_ne_ContentType : str "User-Agent" ≠ ContentType := by decide

/-- The `Content-Type` entry after the header finalisation of `genRequest`. -/
theorem finishHeaders_contentType (req : Request) (ct : GoString) :
    GoMap.get (finishHeaders req ct).Header ContentType = if ct ≠ [] then some [ct] else none := by
  unfold finishHeaders
  by_cases h : ct = []
  · simp [h, Header.Del, canonical_ContentType, GoMap.get_delete]
  · simp [h, Header.Set, canonical_ContentType, GoMap.get_put]


/-- The outcome of `genRequest`, when it is a request, is the finalised request
built from the parsed URL, the merged query and the encoded body. -/
theorem genRequest_ok (env : Env) (W W1 : World) (h : HttpClient) (req : Request)
    (hres : h.genRequest env W = (.ok req, W1)) :
    ∃ reqURL reqURL1 Wq ct body Wb req0,
      env.urlParse h.rawURL = .ok reqURL ∧
      genQuery env W reqURL (W.queryOf h.query) = (.ok reqURL1, Wq) ∧
      encodeBody env Wq h.body = (.ok ct, body, Wb) ∧
      NewRequest env h.method (env.urlString reqURL1) body.buf = .ok req0 ∧
      req = finishHeaders (setHeaders env Wb req0 h.header).1 ct ∧
      W1 = (setHeaders env Wb req0 h.header).2 := by
  unfold HttpClient.genRequest at hres
  split at hres
  · simp at hres
  · rename_i reqURL hparse
    split at hres
    · simp at hres
    · rename_i reqURL1 Wq hq
      split at hres
      · simp at hres
      · rename_i ct body Wb henc
        split at hres
        · simp at hres
        · rename_i req0 hnew
          simp only [Prod.mk.injEq, Except.ok.injEq] at hres
          exact ⟨reqURL, reqURL1, Wq, ct, body, Wb, req0, hparse, hq, henc, hnew,
            hres.1.symm, hres.2.symm⟩


/-! ## Content-Type finalisation -/

/-- Claim C4. Whenever `genRequest` returns a request, the body encoding step
returned some content-type `ct` (the empty one when no body is set), and the
`Content-Type` entry of the request is the single value `ct` when `ct` is not
empty and is absent otherwise. -/
theorem genRequest_content_type (env : Env) (W W1 : World) (h : HttpClient) (req : Request)
    (hres : h.genRequest env W = (.ok req, W1)) :
    ∃ reqURL reqURL1 Wq ct body Wb,
      env.urlParse h.rawURL = .ok reqURL ∧
      genQuery env W reqURL (W.queryOf h.query) = (.ok reqURL1, Wq) ∧
      encodeBody env Wq h.body = (.ok ct, body, Wb) ∧
      (h.body = none → ct = []) ∧
      (ct ≠ [] → GoMap.get req.Header ContentType = some [ct]) ∧
      (ct = [] → GoMap.get req.Header ContentType = none) := by
  obtain ⟨reqURL, reqURL1, Wq, ct, body, Wb, req0, h1, h2, h3, _, h5, _⟩ :=
    genRequest_ok env W W1 h req hres
  refine ⟨reqURL, reqURL1, Wq, ct, body, Wb, h1, h2, h3, ?_, ?_, ?_⟩
  · intro hb
    rw [hb] at h3
    simp only [encodeBody, Prod.mk.injEq, Except.ok.injEq] at h3
    exact h3.1.symm
  · intro hct
    rw [h5, finishHeaders_contentType, if_pos hct]
  · intro hct
    rw [h5, finishHeaders_contentType]
    simp [hct]

/-- Runs of claim C4: the example builder, with its raw body, and the example
builder with a JSON body both resolve, to requests for which the statement of
the claim holds. -/
theorem genRequest_content_type_witness :
    (∃ req W1, exampleState.2.genRequest exampleEnv exampleState.1 = (.ok req, W1) ∧
      ∃ reqURL reqURL1 Wq ct body Wb,
        exampleEnv.urlParse exampleState.2.rawURL = .ok reqURL ∧
        genQuery exampleEnv exampleState.1 reqURL
          (exampleState.1.queryOf exampleState.2.query) = (.ok reqURL1, Wq) ∧
        encodeBody exampleEnv Wq exampleState.2.body = (.ok ct, body, Wb) ∧
        (exampleState.2.body = none → ct = []) ∧
        (ct ≠ [] → GoMap.get req.Header ContentType = some [ct]) ∧
        (ct = [] → GoMap.get req.Header ContentType = none)) ∧
    (∃ req W1, exampleJsonState.2.genRequest exampleEnv exampleJsonState.1 = (.ok req, W1) ∧
      ∃ reqURL reqURL1 Wq ct body Wb,
        exampleEnv.urlParse exampleJsonState.2.rawURL = .ok reqURL ∧
        genQuery exampleEnv exampleJsonState.1 reqURL
          (exampleJsonState.1.queryOf exampleJsonState.2.query) = (.ok reqURL1, Wq) ∧
        encodeBody exampleEnv Wq exampleJsonState.2.body = (.ok ct, body, Wb) ∧
        (exampleJsonState.2.body = none → ct = []) ∧
        (ct ≠ [] → GoMap.get req.Header ContentType = some [ct]) ∧
        (ct = [] → GoMap.get req.Header ContentType = none)) :=
  ⟨⟨_, _, rfl, genRequest_content_type exampleEnv exampleState.1 _ exampleState.2 _ rfl⟩,
    ⟨_, _, rfl,
      genRequest_content_type exampleEnv exampleJsonState.1 _ exampleJsonState.2 _ rfl⟩⟩

/-- The two requests of the runs above: no `Content-Type` for the raw body,
`application/json` alone for the JSON body. -/
theorem content_type_of_example_requests :
    ((exampleState.2.genRequest exampleEnv exampleState.1).1.toOption.map
        (fun req => GoMap.get req.Header ContentType)) = some none ∧
      ((exampleJsonState.2.genRequest exampleEnv exampleJsonState.1).1.toOption.map
        (fun req => GoMap.get req.Header ContentType)) = some (some [ContentTypeJson]) := by
  decide


/-- Claim C5, as the code has it: with a raw passthrough body the resolved
request has no `Content-Type` entry, whatever the headers of the builder hold. -/
theorem genRequest_original_body_no_content_type (env : Env) (W W1 : World) (h : HttpClient)
    (req : Request) (r : Nat) (hbody : h.body = some (NewOriginalBody r))
    (hres : h.genRequest env W = (.ok req, W1)) :
    GoMap.get req.Header ContentType = none ∧ Header.Get req.Header ContentType = [] := by
  obtain ⟨reqURL, reqURL1, Wq, ct, body, Wb, req0, _, _, h3, _, h5, _⟩ :=
    genRequest_ok env W W1 h req hres
  have hct : ct = [] := by
    rw [hbody] at h3
    simp only [encodeBody, NewOriginalBody, Body.Encode] at h3
    split at h3
    · simp at h3
    · simp only [Prod.mk.injEq, Except.ok.injEq] at h3
      exact h3.1.symm
  have hget : GoMap.get req.Header ContentType = none := by
    rw [h5, finishHeaders_contentType]
    simp [hct]
  refine ⟨hget, ?_⟩
  unfold Header.Get
  rw [canonical_ContentType, hget]

/-- A run of claim C5 as amended, on the example builder. -/
theorem genRequest_original_body_no_content_type_witness :
    ∃ req W1, exampleState.2.body = some (NewOriginalBody 0) ∧
      exampleState.2.genRequest exampleEnv exampleState.1 = (.ok req, W1) ∧
      GoMap.get req.Header ContentType = none ∧ Header.Get req.Header ContentType = [] :=
  ⟨_, _, rfl, rfl,
    genRequest_original_body_no_content_type exampleEnv exampleState.1 _ exampleState.2 _ 0
      rfl rfl⟩

/-- Claim C5 fails as stated: the example builder has the raw body of a reader
and the header `Content-Type: text/plain` set through `SetHeader`; resolution
succeeds, and the `Content-Type` of the request is empty, not `text/plain`. -/
theorem original_body_content_type_counterexample :
    exampleState.2.body = some (NewOriginalBody 0) ∧
      Header.Get (exampleState.1.headerOf exampleState.2.header) ContentType = str "text/plain" ∧
      ((exampleState.2.genRequest exampleEnv exampleState.1).1.toOption.map
        (fun req => Header.Get req.Header ContentType)) = some [] := by
  decide

/-! ## Multipart validation -/

/-- Claim C7. A file body with an empty `fileName` fails with the error
`fileName not defined`, whatever `fieldName` is; one with a non-empty `fileName`
and an empty `fieldName` fails with `fieldName not defined`. In both cases the
receiver and the world come back as they were: nothing is written and no file is
opened. -/
theorem file_encode_validation (env : Env) (W : World) (receiver : Writer)
    (fieldName : GoString) (c : Nat) (cs : GoString) (body : List Value) :
    (NewFileBody [] fieldName body).Encode env W receiver =
        (.error (.errorf (str "fileName not defined")), receiver, W) ∧
      (NewFileBody (c :: cs) [] body).Encode env W receiver =
        (.error (.errorf (str "fieldName not defined")), receiver, W) := by
  constructor <;> simp [NewFileBody, Body.Encode]

/-! ## Dispatch -/

/-- Claim C9. When resolution succeeds: a transport error without a response
makes `Send` return 400 with that error, and 400 is not in 200..299; a failed
copy of the response body into the first receiver makes it return 500 with the
copy error; otherwise it returns the status code of the response and no error. -/
theorem send_status_contract (env : Env) (W W1 : World) (h : HttpClient) (req : Request)
    (receiver : List Writer) (hres : h.genRequest env W = (.ok req, W1)) :
    (∀ err, env.Do h.client req = .failed err →
      (h.Send env W receiver).1 = (400, some err) ∧
        ¬ (200 ≤ (h.Send env W receiver).1.1 ∧ (h.Send env W receiver).1.1 ≤ 299)) ∧
    (∀ resp r rs e, env.Do h.client req = .ok resp → receiver = r :: rs →
      (ioCopy r resp.Body).2 = some e → (h.Send env W receiver).1 = (500, some e)) ∧
    (∀ resp, env.Do h.client req = .ok resp →
      (∀ r rs, receiver = r :: rs → (ioCopy r resp.Body).2 = none) →
      (h.Send env W receiver).1 = (resp.StatusCode, none)) := by
  refine ⟨?_, ?_, ?_⟩
  · intro err hdo
    have hs : (h.Send env W receiver).1 = (400, some err) := by
      simp [HttpClient.Send, hres, hdo]
    refine ⟨hs, ?_⟩
    rw [hs]
    simp
  · intro resp r rs e hdo hrecv hcopy
    subst hrecv
    simp only [HttpClient.Send, hres, hdo]
    split
    · rename_i r1 body1 e1 heq
      rw [heq] at hcopy
      simp only [Option.some.injEq] at hcopy
      rw [hcopy]
    · rename_i r1 body1 heq
      rw [heq] at hcopy
      simp at hcopy
  · intro resp hdo hcopy
    cases receiver with
    | nil => simp [HttpClient.Send, hres, hdo]
    | cons r rs =>
      have hc := hcopy r rs rfl
      simp only [HttpClient.Send, hres, hdo]
      split
      · rename_i r1 body1 e1 heq
        rw [heq] at hc
        simp at hc
      · rfl

/-- Runs of claim C9 on the example builder, which resolves: the transport of
the example library reaches no host, and `Send` returns 400 with the transport
error; with a transport that answers 200, `Send` returns 500 with the error of
a receiver that cannot be written, and 200 without error for a buffer. -/
theorem send_status_contract_witness :
    (∃ req W1, exampleState.2.genRequest exampleEnv exampleState.1 = (.ok req, W1) ∧
      exampleEnv.Do exampleState.2.client req = .failed (.lib 5) ∧
      (exampleState.2.Send exampleEnv exampleState.1 []).1 = (400, some (.lib 5))) ∧
    (exampleState.2.Send exampleEnvUp exampleState.1 [⟨[], some (.lib 6)⟩]).1 =
      (500, some (.lib 6)) ∧
    (exampleState.2.Send exampleEnvUp exampleState.1 [⟨[], none⟩]).1 = (200, none) :=
  ⟨⟨_, _, rfl, rfl,
      ((send_status_contract exampleEnv exampleState.1 _ exampleState.2 _ [] rfl).1
        (.lib 5) rfl).1⟩,
    (send_status_contract exampleEnvUp exampleState.1 _ exampleState.2 _
      [⟨[], some (.lib 6)⟩] rfl).2.1 ⟨200, ⟨str "ok", none⟩⟩ ⟨[], some (.lib 6)⟩ [] (.lib 6)
      rfl rfl rfl,
    (send_status_contract exampleEnvUp exampleState.1 _ exampleState.2 _ [⟨[], none⟩] rfl).2.2
      ⟨200, ⟨str "ok", none⟩⟩ rfl (fun r rs hr => by
        simp only [List.cons.injEq] at hr
        rw [← hr.1]
        rfl)⟩


/-! ## Loops that add values to a map -/

theorem appendGet_append (o : Option (List GoString)) (xs ys : List GoString) :
    appendGet (appendGet o xs) ys = appendGet o (xs ++ ys) := by
  unfold appendGet
  by_cases hx : xs = [] <;> by_cases hy : ys = [] <;> simp [hx, hy]

theorem headerAdd_get (h : Header) (key value k : GoString) :
    GoMap.get (Header.Add h key value) k =
      if CanonicalMIMEHeaderKey key = k then appendGet (GoMap.get h k) [value]
      else GoMap.get h k := by
  unfold Header.Add
  rw [GoMap.get_put]
  by_cases hk : CanonicalMIMEHeaderKey key = k
  · subst hk
    simp [appendGet]
  · simp [hk]

theorem valuesAdd_get (v : Values) (key value k : GoString) :
    GoMap.get (Values.Add v key value) k =
      if key = k then appendGet (GoMap.get v k) [value] else GoMap.get v k := by
  unfold Values.Add
  rw [GoMap.get_put]
  by_cases hk : key = k
  · subst hk
    simp [appendGet]
  · simp [hk]

/-- The inner loop: adding the values `vs` under one key. -/
theorem get_foldl_add (add : GoMap (List GoString) → GoString → GoString → GoMap (List GoString))
    (c : GoString → GoString)
    (hadd : ∀ m key value k, GoMap.get (add m key value) k =
      if c key = k then appendGet (GoMap.get m k) [value] else GoMap.get m k)
    (key k : GoString) (vs : List GoString) (m : GoMap (List GoString)) :
    GoMap.get (vs.foldl (fun acc value => add acc key value) m) k =
      if c key = k then appendGet (GoMap.get m k) vs else GoMap.get m k := by
  induction vs generalizing m with
  | nil => simp [appendGet]
  | cons v rest ih =>
    simp only [List.foldl_cons]
    rw [ih, hadd]
    by_cases hk : c key = k
    · simp only [hk, if_true]
      rw [appendGet_append]
      rfl
    · simp [hk]

/-- The nested loops: adding the values of all visited entries. -/
theorem get_foldl_entries
    (add : GoMap (List GoString) → GoString → GoString → GoMap (List GoString))
    (c : GoString → GoString)
    (hadd : ∀ m key value k, GoMap.get (add m key value) k =
      if c key = k then appendGet (GoMap.get m k) [value] else GoMap.get m k)
    (k : GoString) (es : List (GoString × List GoString)) (m : GoMap (List GoString)) :
    GoMap.get (es.foldl (fun acc e => e.2.foldl (fun acc2 value => add acc2 e.1 value) acc) m) k =
      appendGet (GoMap.get m k) (valuesFor c es k) := by
  induction es generalizing m with
  | nil => simp [valuesFor, appendGet]
  | cons e rest ih =>
    simp only [List.foldl_cons]
    rw [ih, get_foldl_add add c hadd]
    by_cases hk : c e.1 = k
    · simp only [hk, if_true, appendGet_append]
      simp [valuesFor, List.filter, hk]
    · simp [valuesFor, List.filter, hk]


/-! ## The order of `range` does not matter -/

theorem rangeMap_perm {V : Type} (env : Env) (W : World) (m : GoMap V) :
    (rangeMap env W m).1.Perm m :=
  List.perm_insertionSort _ m

theorem GoMap.get_eq_none_of_not_mem {V : Type} (m : GoMap V) (k : GoString)
    (hk : k ∉ GoMap.keys m) : GoMap.get m k = none := by
  induction m with
  | nil => rfl
  | cons e rest ih =>
    obtain ⟨a, b⟩ := e
    simp only [GoMap.keys, List.map_cons, List.mem_cons, not_or] at hk
    have hne : ¬ a = k := fun h => hk.1 h.symm
    simp only [GoMap.get, hne, if_false]
    exact ih hk.2

theorem GoMap.mem_keys_of_get {V : Type} (m : GoMap V) (k : GoString) (v : V)
    (hk : GoMap.get m k = some v) : k ∈ GoMap.keys m := by
  by_contra hn
  rw [GoMap.get_eq_none_of_not_mem m k hn] at hk
  exact Option.noConfusion hk

theorem GoMap.get_isSome_of_mem {V : Type} (m : GoMap V) (k : GoString)
    (hk : k ∈ GoMap.keys m) : ∃ v, GoMap.get m k = some v := by
  induction m with
  | nil => simp [GoMap.keys] at hk
  | cons e rest ih =>
    obtain ⟨a, b⟩ := e
    by_cases ha : a = k
    · exact ⟨b, by simp [GoMap.get, ha]⟩
    · simp only [GoMap.keys, List.map_cons, List.mem_cons] at hk
      rcases hk with hk | hk
      · exact absurd hk.symm ha
      · obtain ⟨v, hv⟩ := ih hk
        exact ⟨v, by simp [GoMap.get, ha, hv]⟩

theorem GoMap.filter_key_of_not_mem {V : Type} (m : GoMap V) (k : GoString)
    (hk : k ∉ GoMap.keys m) : m.filter (fun e => decide (e.1 = k)) = [] := by
  rw [List.filter_eq_nil_iff]
  intro e he
  simp only [decide_eq_true_eq]
  intro h
  exact hk (h ▸ List.mem_map_of_mem Prod.fst he)

/-- In a map without repeated keys, the entries for a key are the one bound to
it, if any. -/
theorem GoMap.filter_key {V : Type} (m : GoMap V) (k : GoString)
    (hnd : (GoMap.keys m).Nodup) :
    m.filter (fun e => decide (e.1 = k)) = ((GoMap.get m k).map (fun v => (k, v))).toList := by
  induction m with
  | nil => rfl
  | cons e rest ih =>
    obtain ⟨a, b⟩ := e
    simp only [GoMap.keys, List.map_cons, List.nodup_cons] at hnd
    by_cases ha : a = k
    · subst ha
      have := GoMap.filter_key_of_not_mem rest a hnd.1
      simp [List.filter, GoMap.get, this]
    · simp only [List.filter, ha, decide_False, GoMap.get, if_false]
      exact ih hnd.2

/-- The values visited for a key by a `range` over a map without repeated keys
whose keys are fixed by `c`: the values bound to the key. -/
theorem valuesFor_perm (c : GoString → GoString) (es m : GoMap (List GoString))
    (hp : es.Perm m) (hnd : (GoMap.keys m).Nodup) (hc : ∀ k ∈ GoMap.keys m, c k = k)
    (k : GoString) : valuesFor c es k = (GoMap.get m k).getD [] := by
  unfold valuesFor
  have hcongr : es.filter (fun e => decide (c e.1 = k)) = es.filter (fun e => decide (e.1 = k)) := by
    apply List.filter_congr
    intro e he
    have : c e.1 = e.1 := hc e.1 (List.mem_map_of_mem Prod.fst (hp.subset he))
    rw [this]
  rw [hcongr]
  have hperm := hp.filter (fun e => decide (e.1 = k))
  rw [GoMap.filter_key m k hnd] at hperm
  cases hget : GoMap.get m k with
  | none =>
    rw [hget] at hperm
    simp only [Option.map_none', Option.toList_none, List.perm_nil] at hperm
    simp [hperm]
  | some v =>
    rw [hget] at hperm
    simp only [Option.map_some', Option.toList_some, List.perm_singleton] at hperm
    simp [hperm]

theorem World.keys_headerOf (W : World) (addr : Nat) :
    GoMap.keys (W.headerOf addr) = GoMap.keys ((W.maps[addr]?).getD []) := by
  simp [World.headerOf, GoMap.keys, List.map_map, Function.comp_def]

/-- After `setHeaders` on a request without headers, each key is bound to the
values the builder holds for it, and to nothing when the builder holds none. -/
theorem setHeaders_get (env : Env) (W : World) (req : Request) (addr : Nat) (k : GoString)
    (hwf : W.headerWF addr) (hempty : req.Header = []) :
    GoMap.get (setHeaders env W req addr).1.Header k =
      appendGet none ((GoMap.get (W.headerOf addr) k).getD []) := by
  unfold setHeaders
  simp only
  rw [get_foldl_entries Header.Add CanonicalMIMEHeaderKey headerAdd_get, hempty]
  rw [valuesFor_perm CanonicalMIMEHeaderKey _ (W.headerOf addr) (rangeMap_perm env W _)
    (by rw [World.keys_headerOf]; exact hwf.1)
    (by rw [World.keys_headerOf]; exact hwf.2)]
  rfl


/-! ## Resolution reads the memory of the builder and leaves it as it is -/

theorem World.sameHeap_refl (W : World) : W.sameHeap W := ⟨rfl, rfl, rfl⟩

theorem World.sameHeap_trans {W W1 W2 : World} (h1 : W.sameHeap W1) (h2 : W1.sameHeap W2) :
    W.sameHeap W2 :=
  ⟨h2.1.trans h1.1, h2.2.1.trans h1.2.1, h2.2.2.trans h1.2.2⟩

theorem World.sameHeap_headerOf {W W1 : World} (h : W.sameHeap W1) (addr : Nat) :
    W1.headerOf addr = W.headerOf addr := by
  unfold World.headerOf
  rw [h.1, h.2.1]

theorem World.sameHeap_queryOf {W W1 : World} (h : W.sameHeap W1) (s : Slice) :
    W1.queryOf s = W.queryOf s := by
  unfold World.queryOf
  rw [h.2.2]

theorem World.sameHeap_headerWF {W W1 : World} (h : W.sameHeap W1) (addr : Nat)
    (hwf : W.headerWF addr) : W1.headerWF addr := by
  unfold World.headerWF at *
  rw [h.2.1]
  exact hwf

theorem rangeMap_sameHeap {V : Type} (env : Env) (W : World) (m : GoMap V) :
    W.sameHeap (rangeMap env W m).2 := ⟨rfl, rfl, rfl⟩

theorem valuesEncode_sameHeap (env : Env) (W : World) (v : Values) :
    W.sameHeap (Values.Encode env W v).2 := by
  unfold Values.Encode
  split
  · exact W.sameHeap_refl
  · exact rangeMap_sameHeap env W v

theorem mergeParams_sameHeap (env : Env) (W : World) (urlValues : Values) (params : List Value) :
    W.sameHeap (mergeParams env W urlValues params).2 := by
  induction params generalizing W urlValues with
  | nil => exact W.sameHeap_refl
  | cons p rest ih =>
    unfold mergeParams
    split
    · exact W.sameHeap_refl
    · exact World.sameHeap_trans (rangeMap_sameHeap env W _) (ih _ _)

theorem genQuery_sameHeap (env : Env) (W : World) (reqURL : URL) (params : List Value) :
    W.sameHeap (genQuery env W reqURL params).2 := by
  unfold genQuery
  split
  · exact W.sameHeap_refl
  · rename_i uv _
    have hmp := mergeParams_sameHeap env W uv params
    split
    · rename_i e W1 hm
      rw [hm] at hmp
      exact hmp
    · rename_i merged W1 hm
      rw [hm] at hmp
      exact World.sameHeap_trans hmp (valuesEncode_sameHeap env W1 merged)

theorem bodyEncode_sameHeap (env : Env) (W : World) (p : Body) (receiver : Writer) :
    W.sameHeap (p.Encode env W receiver).2.2 := by
  cases p with
  | original body =>
    simp only [Body.Encode]
    split <;> exact ⟨rfl, rfl, rfl⟩
  | json body esc =>
    simp only [Body.Encode]
    split
    · exact W.sameHeap_refl
    · split <;> exact W.sameHeap_refl
  | form body =>
    simp only [Body.Encode]
    split
    · exact W.sameHeap_refl
    · split <;> exact valuesEncode_sameHeap env W _
  | file body fileName fieldName =>
    simp only [Body.Encode]
    split
    · exact W.sameHeap_refl
    · split
      · exact W.sameHeap_refl
      · split
        · exact ⟨rfl, rfl, rfl⟩
        · split
          · exact ⟨rfl, rfl, rfl⟩
          · split
            · exact ⟨rfl, rfl, rfl⟩
            · split
              · split
                · exact ⟨rfl, rfl, rfl⟩
                · split <;> exact ⟨rfl, rfl, rfl⟩
              · exact ⟨rfl, rfl, rfl⟩

theorem encodeBody_sameHeap (env : Env) (W : World) (body : Option Body) :
    W.sameHeap (encodeBody env W body).2.2 := by
  cases body with
  | none => exact W.sameHeap_refl
  | some p => exact bodyEncode_sameHeap env W p _

theorem setHeaders_sameHeap (env : Env) (W : World) (req : Request) (addr : Nat) :
    W.sameHeap (setHeaders env W req addr).2 := ⟨rfl, rfl, rfl⟩

theorem NewRequest_header (env : Env) (method url body : GoString) (req : Request)
    (h : NewRequest env method url body = .ok req) : req.Header = [] := by
  unfold NewRequest at h
  generalize (if method = [] then GET else method) = m at h
  split at h
  · simp at h
  · split at h
    · simp at h
    · simp only [Except.ok.injEq] at h
      rw [← h]

/-- The outcome of `genRequest`, when it is a request, in terms of the headers
of the builder: the request is the finalisation of a request `req1` whose
header map binds each key to the values the builder holds for it. -/
theorem genRequest_headers (env : Env) (W W1 : World) (h : HttpClient) (req : Request)
    (hwf : W.headerWF h.header) (hres : h.genRequest env W = (.ok req, W1)) :
    ∃ req1 ct, req = finishHeaders req1 ct ∧
      ∀ k, GoMap.get req1.Header k =
        appendGet none ((GoMap.get (W.headerOf h.header) k).getD []) := by
  obtain ⟨reqURL, reqURL1, Wq, ct, body, Wb, req0, _, h2, h3, h4, h5, _⟩ :=
    genRequest_ok env W W1 h req hres
  have hq : W.sameHeap Wq := by
    have := genQuery_sameHeap env W reqURL (W.queryOf h.query)
    rw [h2] at this
    exact this
  have hb : Wq.sameHeap Wb := by
    have := encodeBody_sameHeap env Wq h.body
    rw [h3] at this
    exact this
  have hWb : W.sameHeap Wb := World.sameHeap_trans hq hb
  refine ⟨(setHeaders env Wb req0 h.header).1, ct, h5, ?_⟩
  intro k
  rw [setHeaders_get env Wb req0 h.header k (World.sameHeap_headerWF hWb _ hwf)
    (NewRequest_header env _ _ _ req0 h4), World.sameHeap_headerOf hWb]


/-! ## The default User-Agent -/

theorem finishHeaders_get_userAgent (req : Request) (ct : GoString) :
    GoMap.get (finishHeaders req ct).Header (str "User-Agent") =
      if Header.Get req.Header (str "User-Agent") = [] then some [defaultUserAgent]
      else GoMap.get req.Header (str "User-Agent") := by
  have hne : ¬ ContentType = str "User-Agent" := fun h => UserAgent_ne_ContentType h.symm
  unfold finishHeaders
  by_cases hua : Header.Get req.Header (str "User-Agent") = [] <;>
    by_cases hct : ct = [] <;>
    simp [hua, hct, Header.Set, Header.Del, canonical_ContentType, canonical_UserAgent,
      GoMap.get_put, GoMap.get_delete, hne]

theorem finishHeaders_get_other (req : Request) (ct k : GoString)
    (h1 : k ≠ ContentType) (h2 : k ≠ str "User-Agent") :
    GoMap.get (finishHeaders req ct).Header k = GoMap.get req.Header k := by
  have h1s : ¬ ContentType = k := fun h => h1 h.symm
  have h2s : ¬ str "User-Agent" = k := fun h => h2 h.symm
  unfold finishHeaders
  by_cases hua : Header.Get req.Header (str "User-Agent") = [] <;>
    by_cases hct : ct = [] <;>
    simp [hua, hct, Header.Set, Header.Del, canonical_ContentType, canonical_UserAgent,
      GoMap.get_put, GoMap.get_delete, h1s, h2s]

/-- Claim C6. Whenever `genRequest` returns a request for a builder whose header
map is well formed: if the builder has no `User-Agent`, or one whose first value
is empty, the `User-Agent` of the request is the single default string;
otherwise the `User-Agent` values of the request are those of the builder. -/
theorem genRequest_user_agent (env : Env) (W W1 : World) (h : HttpClient) (req : Request)
    (hwf : W.headerWF h.header) (hres : h.genRequest env W = (.ok req, W1)) :
    (Header.Get (W.headerOf h.header) (str "User-Agent") = [] →
      GoMap.get req.Header (str "User-Agent") = some [defaultUserAgent]) ∧
    (Header.Get (W.headerOf h.header) (str "User-Agent") ≠ [] →
      GoMap.get req.Header (str "User-Agent") =
        GoMap.get (W.headerOf h.header) (str "User-Agent")) := by
  obtain ⟨req1, ct, hreq, hget⟩ := genRequest_headers env W W1 h req hwf hres
  have hua := hget (str "User-Agent")
  have hGet : Header.Get req1.Header (str "User-Agent") =
      Header.Get (W.headerOf h.header) (str "User-Agent") := by
    unfold Header.Get
    rw [canonical_UserAgent, hua]
    cases hm : GoMap.get (W.headerOf h.header) (str "User-Agent") with
    | none => simp [appendGet]
    | some vs =>
      cases vs with
      | nil => simp [appendGet]
      | cons v rest => simp [appendGet]
  rw [hreq, finishHeaders_get_userAgent, hGet]
  constructor
  · intro h0
    rw [if_pos h0]
  · intro h0
    rw [if_neg h0, hua]
    unfold Header.Get at h0
    rw [canonical_UserAgent] at h0
    cases hm : GoMap.get (W.headerOf h.header) (str "User-Agent") with
    | none => rw [hm] at h0; exact absurd rfl h0
    | some vs =>
      cases vs with
      | nil => rw [hm] at h0; exact absurd rfl h0
      | cons v rest => simp [appendGet]

/-- Runs of claim C6. The header map of the example builder is well formed, the
builder resolves, and, having no `User-Agent`, its request carries the default
one; after `SetHeader("user-agent", "curl/8")` its request carries `curl/8`
alone. -/
theorem genRequest_user_agent_witness :
    (∃ req W1, exampleState.1.headerWF exampleState.2.header ∧
      exampleState.2.genRequest exampleEnv exampleState.1 = (.ok req, W1) ∧
      Header.Get (exampleState.1.headerOf exampleState.2.header) (str "User-Agent") = [] ∧
      GoMap.get req.Header (str "User-Agent") = some [defaultUserAgent]) ∧
    (∃ req W1, exampleAgentState.1.headerWF exampleAgentState.2.header ∧
      exampleAgentState.2.genRequest exampleEnv exampleAgentState.1 = (.ok req, W1) ∧
      GoMap.get (exampleAgentState.1.headerOf exampleAgentState.2.header) (str "User-Agent") =
        some [str "curl/8"] ∧
      GoMap.get req.Header (str "User-Agent") =
        GoMap.get (exampleAgentState.1.headerOf exampleAgentState.2.header) (str "User-Agent")) :=
  ⟨⟨_, _, by unfold World.headerWF; decide, rfl, by decide,
      (genRequest_user_agent exampleEnv exampleState.1 _ exampleState.2 _
        (by unfold World.headerWF; decide) rfl).1 (by decide)⟩,
    ⟨_, _, by unfold World.headerWF; decide, rfl, by decide,
      (genRequest_user_agent exampleEnv exampleAgentState.1 _ exampleAgentState.2 _
        (by unfold World.headerWF; decide) rfl).2 (by decide)⟩⟩


/-! ## The file opened by the multipart encoder -/

/-- Claim C8 on the code: for the body `NewFileBody("a.txt", "file")` in a file
system where `a.txt` can be opened and `file` cannot, `Encode` asks for the path
`file`, the field name, and fails with the error of that open; `a.txt` is never
asked for and nothing is written. -/
theorem file_encode_opens_fieldName :
    exampleEnv.openFile (str "a.txt") = .ok ⟨str "hello", none⟩ ∧
      (NewFileBody (str "a.txt") (str "file") []).Encode exampleEnv World.empty ⟨[], none⟩ =
        (.error (.lib 4), ⟨[], none⟩, { World.empty with opened := [str "file"] }) := by
  constructor
  · rfl
  · rfl


/-! ## Frame properties of the mutators -/

theorem World.headerOf_congr (W W1 : World) (addr : Nat)
    (hm : W1.maps[addr]? = W.maps[addr]?)
    (hs : ∀ e ∈ (W.maps[addr]?).getD [], W1.strs[e.2]? = W.strs[e.2]?) :
    W1.headerOf addr = W.headerOf addr := by
  unfold World.headerOf
  rw [hm]
  apply List.map_congr_left
  intro e he
  rw [hs e he]

/-- Setting a header in one map leaves a builder with another map as it was. -/
theorem headerSet_frame (W : World) (addr : Nat) (key value : GoString) (o : HttpClient)
    (hown : W.owns o) (hne : addr ≠ o.header) :
    (W.headerSet addr key value).headerOf o.header = W.headerOf o.header ∧
      (W.headerSet addr key value).queryOf o.query = W.queryOf o.query ∧
      (W.headerSet addr key value).owns o := by
  obtain ⟨h1, h2, h3, h4⟩ := hown
  have hm : (W.headerSet addr key value).maps[o.header]? = W.maps[o.header]? := by
    simp only [World.headerSet]
    exact List.getElem?_set_ne hne
  refine ⟨?_, rfl, ?_, ?_, h3, h4⟩
  · apply World.headerOf_congr _ _ _ hm
    intro e he
    simp only [World.headerSet]
    exact List.getElem?_append_left (h2 e he)
  · simp only [World.headerSet, List.length_set]
    exact h1
  · intro e he
    rw [hm] at he
    simp only [World.headerSet, List.length_append, List.length_singleton]
    exact Nat.lt_succ_of_lt (h2 e he)

/-- Appending to one slice leaves a builder with another array as it was. -/
theorem appendValues_frame (env : Env) (W : World) (s : Slice) (xs : List Value)
    (o : HttpClient) (hown : W.owns o)
    (hsep : s.cap = 0 ∨ o.query.cap = 0 ∨ s.ptr ≠ o.query.ptr) :
    (appendValues env W s xs).1.headerOf o.header = W.headerOf o.header ∧
      (appendValues env W s xs).1.queryOf o.query = W.queryOf o.query ∧
      (appendValues env W s xs).1.owns o ∧
      ((appendValues env W s xs).2.cap = 0 ∨ o.query.cap = 0 ∨
        (appendValues env W s xs).2.ptr ≠ o.query.ptr) := by
  obtain ⟨h1, h2, h3, h4⟩ := hown
  unfold appendValues
  by_cases hx : xs = []
  · rw [if_pos hx]
    exact ⟨rfl, rfl, ⟨h1, h2, h3, h4⟩, hsep⟩
  · simp only [hx, if_false]
    have hpos : 0 < xs.length := List.length_pos.mpr hx
    by_cases hfit : s.len + xs.length ≤ s.cap
    · simp only [hfit, if_true]
      have hcap : s.cap ≠ 0 := by omega
      refine ⟨rfl, ?_, ⟨h1, h2, h3, ?_⟩, ?_⟩
      · rcases hsep with hs | ho | hp
        · exact absurd hs hcap
        · have hl : o.query.len = 0 := by omega
          simp [World.queryOf, hl]
        · simp only [World.queryOf]
          rw [List.getElem?_set_ne hp]
      · rcases h4 with h4 | h4
        · exact Or.inl h4
        · right
          simp only [List.length_set]
          exact h4
      · rcases hsep with hs | ho | hp
        · exact absurd hs hcap
        · exact Or.inr (Or.inl ho)
        · exact Or.inr (Or.inr hp)
    · simp only [hfit, if_false]
      refine ⟨rfl, ?_, ⟨h1, h2, h3, ?_⟩, ?_⟩
      · rcases h4 with h4 | h4
        · have hl : o.query.len = 0 := by omega
          simp [World.queryOf, hl]
        · simp only [World.queryOf]
          rw [List.getElem?_append_left h4]
      · rcases h4 with h4 | h4
        · exact Or.inl h4
        · right
          simp only [List.length_append, List.length_singleton]
          exact Nat.lt_succ_of_lt h4
      · rcases h4 with h4 | h4
        · exact Or.inr (Or.inl h4)
        · exact Or.inr (Or.inr (Nat.ne_of_gt h4))

/-- One call on a builder leaves a builder that shares no memory with it as it
was, and the two still share no memory afterwards. -/
theorem apply_frame (env : Env) (W : World) (g o : HttpClient) (op : Op)
    (hown : W.owns o) (hsep : apart g.header g.query o) :
    (g.apply env W op).1.headerOf o.header = W.headerOf o.header ∧
      (g.apply env W op).1.queryOf o.query = W.queryOf o.query ∧
      (g.apply env W op).1.owns o ∧
      apart (g.apply env W op).2.header (g.apply env W op).2.query o := by
  cases op with
  | setHeader key value =>
    obtain ⟨a, b, c⟩ := headerSet_frame W g.header key value o hown hsep.1
    exact ⟨a, b, c, hsep⟩
  | setBasicAuth username password =>
    obtain ⟨a, b, c⟩ := headerSet_frame W g.header (str "Authorization")
      (str "Basic " ++ genBasicAuth username password) o hown hsep.1
    exact ⟨a, b, c, hsep⟩
  | addQueries params =>
    simp only [HttpClient.apply, HttpClient.AddQueries]
    split
    · obtain ⟨a, b, c, d⟩ := appendValues_frame env W g.query params o hown hsep.2
      exact ⟨a, b, c, hsep.1, d⟩
    · exact ⟨rfl, rfl, hown, hsep⟩

/-- A sequence of calls on a builder leaves a builder that shares no memory
with it as it was. -/
theorem applyAll_frame (env : Env) (W : World) (g o : HttpClient) (ops : List Op)
    (hown : W.owns o) (hsep : apart g.header g.query o) :
    (g.applyAll env W ops).1.headerOf o.header = W.headerOf o.header ∧
      (g.applyAll env W ops).1.queryOf o.query = W.queryOf o.query := by
  induction ops generalizing W g with
  | nil => exact ⟨rfl, rfl⟩
  | cons op rest ih =>
    obtain ⟨a, b, c, d⟩ := apply_frame env W g o op hown hsep
    obtain ⟨a2, b2⟩ := ih (g.apply env W op).1 (g.apply env W op).2 c d
    simp only [HttpClient.applyAll]
    exact ⟨a2.trans a, b2.trans b⟩


/-! ## The fork -/

theorem GoMap.put_forall {V : Type} (P : V → Prop) (m : GoMap V) (k : GoString) (v : V)
    (hm : ∀ e ∈ m, P e.2) (hv : P v) : ∀ e ∈ GoMap.put m k v, P e.2 := by
  induction m with
  | nil =>
    intro e he
    simp only [GoMap.put, List.mem_singleton] at he
    rw [he]
    exact hv
  | cons x rest ih =>
    obtain ⟨a, b⟩ := x
    intro e he
    by_cases ha : a = k
    · simp only [GoMap.put, ha, if_true, List.mem_cons] at he
      rcases he with he | he
      · rw [he]
        exact hv
      · exact hm e (List.mem_cons_of_mem _ he)
    · simp only [GoMap.put, ha, if_false, List.mem_cons] at he
      rcases he with he | he
      · rw [he]
        exact hm (a, b) (List.mem_cons_self _ _)
      · exact ih (fun e he => hm e (List.mem_cons_of_mem _ he)) e he

theorem GoMap.foldl_put_forall {V : Type} (P : V → Prop) (es : List (GoString × V))
    (m : GoMap V) (hm : ∀ e ∈ m, P e.2) (hes : ∀ e ∈ es, P e.2) :
    ∀ e ∈ es.foldl (fun acc e => GoMap.put acc e.1 e.2) m, P e.2 := by
  induction es generalizing m with
  | nil => exact hm
  | cons x rest ih =>
    simp only [List.foldl_cons]
    exact ih _ (GoMap.put_forall P m x.1 x.2 hm (hes x (List.mem_cons_self _ _)))
      (fun e he => hes e (List.mem_cons_of_mem _ he))

/-- The slice that `append([]interface{}{}, xs...)` returns has its own array. -/
theorem appendValues_empty (env : Env) (W : World) (xs : List Value) :
    (appendValues env W ⟨0, 0, 0⟩ xs).2.len ≤ (appendValues env W ⟨0, 0, 0⟩ xs).2.cap ∧
      ((appendValues env W ⟨0, 0, 0⟩ xs).2.cap = 0 ∨
        (appendValues env W ⟨0, 0, 0⟩ xs).2.ptr < (appendValues env W ⟨0, 0, 0⟩ xs).1.arrs.length) ∧
      (appendValues env W ⟨0, 0, 0⟩ xs).1.maps = W.maps ∧
      (appendValues env W ⟨0, 0, 0⟩ xs).1.strs = W.strs := by
  unfold appendValues
  by_cases hx : xs = []
  · rw [if_pos hx]
    exact ⟨Nat.le_refl _, Or.inl rfl, rfl, rfl⟩
  · rw [if_neg hx]
    have hpos : 0 < xs.length := List.length_pos.mpr hx
    have hfit : ¬ (0 + xs.length ≤ 0) := by omega
    rw [if_neg hfit]
    refine ⟨Nat.le_max_left _ _, Or.inr ?_, rfl, rfl⟩
    simp

/-- The fork of a builder whose memory is allocated: the builder is as it was,
the memory of both is allocated, and they share neither header map nor query
array. -/
theorem fork_spec (env : Env) (W : World) (h : HttpClient) (hown : W.owns h) :
    (h.New env W).1.headerOf h.header = W.headerOf h.header ∧
      (h.New env W).1.queryOf h.query = W.queryOf h.query ∧
      (h.New env W).1.owns h ∧
      (h.New env W).1.owns (h.New env W).2 ∧
      apart (h.New env W).2.header (h.New env W).2.query h ∧
      apart h.header h.query (h.New env W).2 := by
  obtain ⟨h1, h2, h3, h4⟩ := hown
  -- the world after the header copy
  generalize hW2 : ({ W with
      ranges := W.ranges + 1
      maps := (W.maps ++ [[]]).set W.maps.length
        ((rangeMap env { W with maps := W.maps ++ [[]] }
          (((W.maps ++ [[]])[h.header]?).getD [])).1.foldl
          (fun (m : GoMap Nat) (e : GoString × Nat) => GoMap.put m e.1 e.2) []) } : World) = W2
  have hne : W.maps.length ≠ h.header := Nat.ne_of_gt h1
  have hmaps : W2.maps[h.header]? = W.maps[h.header]? := by
    rw [← hW2]
    simp only
    rw [List.getElem?_set_ne hne, List.getElem?_append_left h1]
  have hstrs : W2.strs = W.strs := by rw [← hW2]
  have harrs : W2.arrs = W.arrs := by rw [← hW2]
  have hlen : W2.maps.length = W.maps.length + 1 := by
    rw [← hW2]
    simp
  have hown2 : W2.owns h := by
    refine ⟨by omega, ?_, h3, ?_⟩
    · intro e he
      rw [hmaps] at he
      rw [hstrs]
      exact h2 e he
    · rw [harrs]
      exact h4
  have hhdr2 : W2.headerOf h.header = W.headerOf h.header := by
    unfold World.headerOf
    rw [hmaps, hstrs]
  have hq2 : W2.queryOf h.query = W.queryOf h.query := by
    unfold World.queryOf
    rw [harrs]
  have hnew : h.New env W =
      ((appendValues env W2 ⟨0, 0, 0⟩ (W2.queryOf h.query)).1,
        { client := h.client
          config := Config.zero
          method := h.method
          rawURL := h.rawURL
          header := W.maps.length
          query := (appendValues env W2 ⟨0, 0, 0⟩ (W2.queryOf h.query)).2
          body := h.body
          resp := none }) := by
    rw [← hW2]
    rfl
  obtain ⟨a, b, c, d⟩ := appendValues_frame env W2 ⟨0, 0, 0⟩ (W2.queryOf h.query) h hown2
    (Or.inl rfl)
  obtain ⟨e1, e2, e3, e4⟩ := appendValues_empty env W2 (W2.queryOf h.query)
  rw [hnew]
  refine ⟨a.trans hhdr2, b.trans hq2, c, ⟨?_, ?_, e1, e2⟩, ⟨hne, d⟩, ⟨hne.symm, ?_⟩⟩
  · simp only
    rw [e3, hlen]
    exact Nat.lt_succ_self _
  · intro e he
    simp only at he
    rw [e3, ← hW2] at he
    simp only at he
    rw [List.getElem?_set_self (by simp)] at he
    simp only [Option.getD_some] at he
    rw [e4, hstrs]
    refine GoMap.foldl_put_forall (fun a => a < W.strs.length) _ [] (by simp) ?_ e he
    intro x hx
    have hx2 := (rangeMap_perm env _ _).subset hx
    rw [List.getElem?_append_left h1] at hx2
    exact h2 x hx2
  · rcases d with d | d | d
    · exact Or.inr (Or.inl d)
    · exact Or.inl d
    · exact Or.inr (Or.inr (Ne.symm d))

/-- The memory model does tell shared maps from copied ones: a second builder
that keeps the header map of the example builder itself (a plain struct copy)
changes the headers of the example builder with its `SetHeader`. -/
theorem shared_header_map_is_visible :
    ((exampleState.2.SetHeader exampleState.1 (str "content-type")
        (str "application/xml")).1.headerOf exampleState.2.header) ≠
      exampleState.1.headerOf exampleState.2.header := by
  decide


/-! ## Canonical header keys -/

theorem validHeaderFieldByte_of_lower (c : Nat) (h : 97 ≤ c ∧ c ≤ 122) :
    validHeaderFieldByte c = true := by
  have h1 : decide (97 ≤ c) = true := decide_eq_true h.1
  have h2 : decide (c ≤ 122) = true := decide_eq_true h.2
  simp [validHeaderFieldByte, h1, h2]

theorem validHeaderFieldByte_of_upper (c : Nat) (h : 65 ≤ c ∧ c ≤ 90) :
    validHeaderFieldByte c = true := by
  have h1 : decide (65 ≤ c) = true := decide_eq_true h.1
  have h2 : decide (c ≤ 90) = true := decide_eq_true h.2
  simp [validHeaderFieldByte, h1, h2]

/-- Bytes that are equal up to case are token bytes together. -/
theorem validHeaderFieldByte_congr (c d : Nat) (h : asciiLower c = asciiLower d) :
    validHeaderFieldByte c = validHeaderFieldByte d := by
  unfold asciiLower at h
  by_cases hc : 65 ≤ c ∧ c ≤ 90
  · rw [validHeaderFieldByte_of_upper c hc]
    by_cases hd : 65 ≤ d ∧ d ≤ 90
    · rw [validHeaderFieldByte_of_upper d hd]
    · rw [if_pos hc, if_neg hd] at h
      rw [validHeaderFieldByte_of_lower d (by omega)]
  · by_cases hd : 65 ≤ d ∧ d ≤ 90
    · rw [if_neg hc, if_pos hd] at h
      rw [validHeaderFieldByte_of_upper d hd, validHeaderFieldByte_of_lower c (by omega)]
    · rw [if_neg hc, if_neg hd] at h
      rw [h]

theorem all_valid_congr (s t : GoString) (h : s.map asciiLower = t.map asciiLower) :
    s.all validHeaderFieldByte = t.all validHeaderFieldByte := by
  induction s generalizing t with
  | nil =>
    cases t with
    | nil => rfl
    | cons d ds => simp at h
  | cons c cs ih =>
    cases t with
    | nil => simp at h
    | cons d ds =>
      simp only [List.map_cons, List.cons.injEq] at h
      simp only [List.all_cons]
      rw [validHeaderFieldByte_congr c d h.1, ih ds h.2]

/-- The byte that the canonicalising loop writes for `c`. -/
theorem canonLoop_cons (upper : Bool) (c : Nat) (cs : GoString) :
    canonLoop upper (c :: cs) =
      (if upper && (97 ≤ c && c ≤ 122) then c - 32
        else if !upper && (65 ≤ c && c ≤ 90) then c + 32 else c) ::
      canonLoop
        ((if upper && (97 ≤ c && c ≤ 122) then c - 32
          else if !upper && (65 ≤ c && c ≤ 90) then c + 32 else c) == 45) cs := rfl

theorem asciiLower_canonByte (upper : Bool) (c : Nat) :
    asciiLower (if upper && (97 ≤ c && c ≤ 122) then c - 32
      else if !upper && (65 ≤ c && c ≤ 90) then c + 32 else c) = asciiLower c := by
  unfold asciiLower
  cases upper <;> simp only [Bool.true_and, Bool.false_and, Bool.not_true, Bool.not_false,
    Bool.and_eq_true, decide_eq_true_eq, if_false, Bool.false_eq_true] <;>
    split_ifs <;> omega

theorem canonByte_congr (upper : Bool) (c d : Nat) (h : asciiLower c = asciiLower d) :
    (if upper && (97 ≤ c && c ≤ 122) then c - 32
      else if !upper && (65 ≤ c && c ≤ 90) then c + 32 else c) =
    (if upper && (97 ≤ d && d ≤ 122) then d - 32
      else if !upper && (65 ≤ d && d ≤ 90) then d + 32 else d) := by
  unfold asciiLower at h
  cases upper <;> simp only [Bool.true_and, Bool.false_and, Bool.not_true, Bool.not_false,
    Bool.and_eq_true, decide_eq_true_eq, if_false, Bool.false_eq_true] <;>
    split_ifs at h ⊢ <;> omega

/-- The canonicalising loop changes the case of bytes only. -/
theorem map_asciiLower_canonLoop (upper : Bool) (s : GoString) :
    (canonLoop upper s).map asciiLower = s.map asciiLower := by
  induction s generalizing upper with
  | nil => rfl
  | cons c cs ih =>
    rw [canonLoop_cons, List.map_cons, List.map_cons, asciiLower_canonByte, ih]

/-- The canonicalising loop gives the same result on strings that are equal up
to case. -/
theorem canonLoop_congr (upper : Bool) (s t : GoString)
    (h : s.map asciiLower = t.map asciiLower) : canonLoop upper s = canonLoop upper t := by
  induction s generalizing t upper with
  | nil =>
    cases t with
    | nil => rfl
    | cons d ds => simp at h
  | cons c cs ih =>
    cases t with
    | nil => simp at h
    | cons d ds =>
      simp only [List.map_cons, List.cons.injEq] at h
      rw [canonLoop_cons, canonLoop_cons, canonByte_congr upper c d h.1, ih _ ds h.2]

/-- Canonicalising twice is canonicalising once. -/
theorem canonical_idem (s : GoString) :
    CanonicalMIMEHeaderKey (CanonicalMIMEHeaderKey s) = CanonicalMIMEHeaderKey s := by
  unfold CanonicalMIMEHeaderKey
  by_cases hs : s.all validHeaderFieldByte = true
  · rw [if_pos hs]
    have hl := map_asciiLower_canonLoop true s
    have hv : (canonLoop true s).all validHeaderFieldByte = true := by
      rw [all_valid_congr _ _ hl]
      exact hs
    rw [if_pos hv]
    exact canonLoop_congr true _ _ hl
  · rw [if_neg hs, if_neg hs]

/-- For a name made of token bytes, a key has the same canonical form exactly
when it equals the name up to ASCII case. -/
theorem canonical_eq_iff (key name : GoString) (hname : name.all validHeaderFieldByte = true) :
    CanonicalMIMEHeaderKey key = CanonicalMIMEHeaderKey name ↔
      equalFoldASCII key name = true := by
  unfold equalFoldASCII
  rw [beq_iff_eq]
  constructor
  · intro h
    have hn : CanonicalMIMEHeaderKey name = canonLoop true name := by
      unfold CanonicalMIMEHeaderKey
      rw [if_pos hname]
    by_cases hk : key.all validHeaderFieldByte = true
    · have hkc : CanonicalMIMEHeaderKey key = canonLoop true key := by
        unfold CanonicalMIMEHeaderKey
        rw [if_pos hk]
      rw [hkc, hn] at h
      rw [← map_asciiLower_canonLoop true key, h, map_asciiLower_canonLoop]
    · have hkc : CanonicalMIMEHeaderKey key = key := by
        unfold CanonicalMIMEHeaderKey
        rw [if_neg hk]
      rw [hkc, hn] at h
      rw [h, map_asciiLower_canonLoop]
  · intro h
    have hk : key.all validHeaderFieldByte = true := by
      rw [all_valid_congr _ _ h]
      exact hname
    unfold CanonicalMIMEHeaderKey
    rw [if_pos hk, if_pos hname]
    exact canonLoop_congr true _ _ h


/-! ## `SetHeader` on a builder -/

theorem GoMap.map_put {V U : Type} (g : V → U) (m : GoMap V) (k : GoString) (x : V) :
    (GoMap.put m k x).map (fun e => (e.1, g e.2)) =
      GoMap.put (m.map (fun e => (e.1, g e.2))) k (g x) := by
  induction m with
  | nil => rfl
  | cons e rest ih =>
    obtain ⟨a, b⟩ := e
    by_cases ha : a = k
    · simp [GoMap.put, ha]
    · simp only [GoMap.put, ha, if_false, List.map_cons]
      rw [ih]

theorem GoMap.keys_put {V : Type} (m : GoMap V) (k : GoString) (v : V) :
    GoMap.keys (GoMap.put m k v) = if k ∈ GoMap.keys m then GoMap.keys m else GoMap.keys m ++ [k] := by
  induction m with
  | nil => simp [GoMap.put, GoMap.keys]
  | cons e rest ih =>
    obtain ⟨a, b⟩ := e
    by_cases ha : a = k
    · subst ha
      simp [GoMap.put, GoMap.keys]
    · have hak : ¬ k = a := fun h => ha h.symm
      simp only [GoMap.keys] at ih
      simp only [GoMap.put, ha, if_false, GoMap.keys, List.map_cons, List.mem_cons, hak,
        false_or, ih]
      split <;> simp

/-- The keys of a header map stay distinct and canonical under `Set`. -/
theorem Header.Set_keys (h : Header) (key value : GoString)
    (hnd : (GoMap.keys h).Nodup) (hc : ∀ k ∈ GoMap.keys h, CanonicalMIMEHeaderKey k = k) :
    (GoMap.keys (Header.Set h key value)).Nodup ∧
      ∀ k ∈ GoMap.keys (Header.Set h key value), CanonicalMIMEHeaderKey k = k := by
  unfold Header.Set
  rw [GoMap.keys_put]
  by_cases hk : CanonicalMIMEHeaderKey key ∈ GoMap.keys h
  · rw [if_pos hk]
    exact ⟨hnd, hc⟩
  · rw [if_neg hk]
    constructor
    · rw [List.nodup_append]
      refine ⟨hnd, List.nodup_singleton _, ?_⟩
      intro a ha1 ha2
      simp only [List.mem_singleton] at ha2
      exact hk (ha2 ▸ ha1)
    · intro k hmem
      simp only [List.mem_append, List.mem_singleton] at hmem
      rcases hmem with hmem | hmem
      · exact hc k hmem
      · rw [hmem]
        exact canonical_idem key

/-- The method `SetHeader`, seen on the headers of the builder, is `Header.Set`;
the memory of the builder stays allocated. -/
theorem SetHeader_spec (W : World) (h : HttpClient) (key value : GoString) (hown : W.owns h) :
    (h.SetHeader W key value).2 = h ∧
      (h.SetHeader W key value).1.headerOf h.header =
        Header.Set (W.headerOf h.header) key value ∧
      (h.SetHeader W key value).1.owns h := by
  obtain ⟨h1, h2, h3, h4⟩ := hown
  have hmaps : (W.headerSet h.header key value).maps[h.header]? =
      some (GoMap.put ((W.maps[h.header]?).getD []) (CanonicalMIMEHeaderKey key) W.strs.length) := by
    simp only [World.headerSet]
    exact List.getElem?_set_self h1
  refine ⟨rfl, ?_, ?_, ?_, h3, h4⟩
  · simp only [HttpClient.SetHeader, World.headerOf, hmaps, Option.getD_some]
    rw [GoMap.map_put (fun a => ((W.headerSet h.header key value).strs[a]?).getD [])]
    unfold Header.Set
    congr 1
    · apply List.map_congr_left
      intro e he
      simp only [World.headerSet]
      rw [List.getElem?_append_left (h2 e he)]
    · simp [World.headerSet]
  · simp only [HttpClient.SetHeader, World.headerSet, List.length_set]
    exact h1
  · intro e he
    simp only [HttpClient.SetHeader] at he
    rw [hmaps] at he
    simp only [Option.getD_some] at he
    simp only [HttpClient.SetHeader, World.headerSet, List.length_append, List.length_singleton]
    exact GoMap.put_forall (fun a => a < W.strs.length + 1) _ _ _
      (fun e he => Nat.lt_succ_of_lt (h2 e he)) (Nat.lt_succ_self _) e he

/-- A sequence of `SetHeader` calls, seen on the headers of the builder. -/
theorem SetHeaderAll_spec (W : World) (h : HttpClient) (calls : List (GoString × GoString))
    (hown : W.owns h) :
    (h.SetHeaderAll W calls).2 = h ∧
      (h.SetHeaderAll W calls).1.headerOf h.header =
        calls.foldl (fun m c => Header.Set m c.1 c.2) (W.headerOf h.header) := by
  induction calls generalizing W with
  | nil => exact ⟨rfl, rfl⟩
  | cons c rest ih =>
    obtain ⟨key, value⟩ := c
    obtain ⟨a, b, d⟩ := SetHeader_spec W h key value hown
    simp only [HttpClient.SetHeaderAll, List.foldl_cons]
    obtain ⟨x, y⟩ := ih _ d
    rw [b] at y
    exact ⟨x, y⟩

/-- The builder that `New` returns: its memory is allocated and its header map
is empty. -/
theorem New_spec (W : World) (cfg : List Config) :
    (New W cfg).1.owns (New W cfg).2 ∧ (New W cfg).1.headerOf (New W cfg).2.header = [] := by
  constructor
  · refine ⟨?_, ?_, Nat.le_refl _, Or.inl rfl⟩
    · simp [New]
    · intro e he
      simp [New] at he
  · simp [New, World.headerOf]

/-- The entry of a key after a sequence of `Header.Set` calls: the value of the
last call with that canonical key, or the entry before the calls. -/
theorem foldl_Set_get (calls : List (GoString × GoString)) (m : Header) (k : GoString) :
    GoMap.get (calls.foldl (fun m c => Header.Set m c.1 c.2) m) k =
      match lastValue (fun key => CanonicalMIMEHeaderKey key == k) calls with
      | some v => some [v]
      | none => GoMap.get m k := by
  induction calls generalizing m with
  | nil => rfl
  | cons c rest ih =>
    obtain ⟨key, value⟩ := c
    simp only [List.foldl_cons, lastValue]
    rw [ih]
    cases hl : lastValue (fun key => CanonicalMIMEHeaderKey key == k) rest with
    | some w => rfl
    | none =>
      simp only [Header.Set, GoMap.get_put]
      by_cases hk : CanonicalMIMEHeaderKey key = k
      · simp [hk]
      · simp [hk]

theorem foldl_Set_keys (calls : List (GoString × GoString)) (m : Header)
    (hnd : (GoMap.keys m).Nodup) (hc : ∀ k ∈ GoMap.keys m, CanonicalMIMEHeaderKey k = k) :
    (GoMap.keys (calls.foldl (fun m c => Header.Set m c.1 c.2) m)).Nodup ∧
      ∀ k ∈ GoMap.keys (calls.foldl (fun m c => Header.Set m c.1 c.2) m),
        CanonicalMIMEHeaderKey k = k := by
  induction calls generalizing m with
  | nil => exact ⟨hnd, hc⟩
  | cons c rest ih =>
    obtain ⟨a, b⟩ := Header.Set_keys m c.1 c.2 hnd hc
    exact ih _ a b

theorem lastValue_congr (p q : GoString → Bool) (calls : List (GoString × GoString))
    (h : ∀ k, p k = q k) : lastValue p calls = lastValue q calls := by
  have : p = q := funext h
  rw [this]


/-- A key has the canonical form of a name exactly when it matches the name. -/
theorem canonical_eq_iff_matches (key name : GoString) :
    CanonicalMIMEHeaderKey key = CanonicalMIMEHeaderKey name ↔ matchesName key name = true := by
  unfold matchesName
  by_cases hname : name.all validHeaderFieldByte = true
  · rw [if_pos hname]
    exact canonical_eq_iff key name hname
  · rw [if_neg hname, beq_iff_eq]
    have hn : CanonicalMIMEHeaderKey name = name := by
      unfold CanonicalMIMEHeaderKey
      rw [if_neg hname]
    rw [hn]
    by_cases hk : key.all validHeaderFieldByte = true
    · have hkc : CanonicalMIMEHeaderKey key = canonLoop true key := by
        unfold CanonicalMIMEHeaderKey
        rw [if_pos hk]
      have hv : (canonLoop true key).all validHeaderFieldByte = true := by
        rw [all_valid_congr _ _ (map_asciiLower_canonLoop true key)]
        exact hk
      constructor
      · intro h
        rw [hkc] at h
        rw [h] at hv
        exact absurd hv hname
      · intro h
        rw [h] at hk
        exact absurd hk hname
    · have hkc : CanonicalMIMEHeaderKey key = key := by
        unfold CanonicalMIMEHeaderKey
        rw [if_neg hk]
      rw [hkc]

/-- Claim C3, as the code has it. A builder fresh from `New`, after any sequence
of `SetHeader` calls, and any header name: the header map holds, under the
canonical form of the name, exactly the value of the last call whose key
matches the name (and nothing when no call matches), where a key matches a name
made of token bytes when it equals it up to ASCII case, and matches a name with
a space or another non-token byte only when it equals it exactly; and if the
canonical form of the name is neither `Content-Type` nor `User-Agent`, every
request resolved from a builder with this header map carries exactly the same
single value. -/
theorem setHeader_replace_semantics (env : Env) (W0 : World) (cfg : List Config)
    (calls : List (GoString × GoString)) (name : GoString) :
    GoMap.get
        (((New W0 cfg).2.SetHeaderAll (New W0 cfg).1 calls).1.headerOf (New W0 cfg).2.header)
        (CanonicalMIMEHeaderKey name) =
      (lastValue (fun key => matchesName key name) calls).map (fun v => [v]) ∧
    (CanonicalMIMEHeaderKey name ≠ ContentType →
      CanonicalMIMEHeaderKey name ≠ str "User-Agent" →
      ∀ (W W1 : World) (h : HttpClient) (req : Request),
        W.maps = ((New W0 cfg).2.SetHeaderAll (New W0 cfg).1 calls).1.maps →
        W.strs = ((New W0 cfg).2.SetHeaderAll (New W0 cfg).1 calls).1.strs →
        h.header = (New W0 cfg).2.header →
        h.genRequest env W = (.ok req, W1) →
        GoMap.get req.Header (CanonicalMIMEHeaderKey name) =
          (lastValue (fun key => matchesName key name) calls).map (fun v => [v])) := by
  obtain ⟨hown, hempty⟩ := New_spec W0 cfg
  obtain ⟨_, hview⟩ := SetHeaderAll_spec (New W0 cfg).1 (New W0 cfg).2 calls hown
  rw [hempty] at hview
  have hlast : lastValue (fun key => CanonicalMIMEHeaderKey key == CanonicalMIMEHeaderKey name)
      calls = lastValue (fun key => matchesName key name) calls := by
    apply lastValue_congr
    intro key
    rw [Bool.eq_iff_iff, beq_iff_eq]
    exact canonical_eq_iff_matches key name
  have hget : GoMap.get
      (((New W0 cfg).2.SetHeaderAll (New W0 cfg).1 calls).1.headerOf (New W0 cfg).2.header)
      (CanonicalMIMEHeaderKey name) =
      (lastValue (fun key => matchesName key name) calls).map (fun v => [v]) := by
    rw [hview, foldl_Set_get, hlast]
    cases lastValue (fun key => matchesName key name) calls <;> rfl
  refine ⟨hget, ?_⟩
  intro hct hua W W1 h req hmaps hstrs hhdr hres
  have hsame : W.headerOf h.header =
      ((New W0 cfg).2.SetHeaderAll (New W0 cfg).1 calls).1.headerOf (New W0 cfg).2.header := by
    unfold World.headerOf
    rw [hmaps, hstrs, hhdr]
  have hkeys := foldl_Set_keys calls [] (by simp [GoMap.keys]) (by simp [GoMap.keys])
  have hwf : W.headerWF h.header := by
    unfold World.headerWF
    rw [← World.keys_headerOf, hsame, hview]
    exact hkeys
  obtain ⟨req1, ct, hreq, hreq1⟩ := genRequest_headers env W W1 h req hwf hres
  rw [hreq, finishHeaders_get_other _ _ _ hct hua, hreq1, hsame, hget]
  cases lastValue (fun key => matchesName key name) calls <;> rfl

/-- A run of claim C3 as amended, with both parts: after
`SetHeader("x-token", "1")` and `SetHeader("X-TOKEN", "2")` on a fresh builder,
the last call that matches `x-token` set `2`; the header map holds `2` alone
under `X-Token`, and the request resolved after `BaseURL("http://h/a")` carries
`2` alone under `X-Token`. -/
theorem setHeader_replace_semantics_witness :
    lastValue (fun key => matchesName key (str "x-token")) exampleTokenCalls = some (str "2") ∧
    CanonicalMIMEHeaderKey (str "x-token") = str "X-Token" ∧
    GoMap.get (exampleTokenState.1.headerOf exampleTokenState.2.header)
        (CanonicalMIMEHeaderKey (str "x-token")) =
      (lastValue (fun key => matchesName key (str "x-token")) exampleTokenCalls).map
        (fun v => [v]) ∧
    ∃ req W1, exampleTokenState.2.genRequest exampleEnv exampleTokenState.1 = (.ok req, W1) ∧
      GoMap.get req.Header (CanonicalMIMEHeaderKey (str "x-token")) =
        (lastValue (fun key => matchesName key (str "x-token")) exampleTokenCalls).map
          (fun v => [v]) :=
  ⟨by decide, by decide,
    (setHeader_replace_semantics exampleEnv World.empty [] exampleTokenCalls (str "x-token")).1,
    _, _, rfl,
    (setHeader_replace_semantics exampleEnv World.empty [] exampleTokenCalls (str "x-token")).2
      (by decide) (by decide) exampleTokenState.1 _ exampleTokenState.2 _ rfl rfl rfl rfl⟩

/-- A run of claim C3 as amended on keys with a space: after
`SetHeader("a b", "1")` and `SetHeader("A B", "2")` on a fresh builder, only the
first call matches the name `a b`, and the header map holds `1` alone under
`a b`. -/
theorem space_keys_are_kept_apart :
    lastValue (fun key => matchesName key (str "a b"))
        [(str "a b", str "1"), (str "A B", str "2")] = some (str "1") ∧
      GoMap.get
        (((New World.empty []).2.SetHeaderAll (New World.empty []).1
          [(str "a b", str "1"), (str "A B", str "2")]).1.headerOf
          (New World.empty []).2.header)
        (CanonicalMIMEHeaderKey (str "a b")) = some [str "1"] := by
  decide

/-- Claim C3 fails as stated: after `SetHeader("a b", "1")` and
`SetHeader("A B", "2")` on a fresh builder, the last call whose key equals `a b`
up to case set `2`, yet the map holds `1` under the canonical form of `a b`,
which is `a b` itself (and `2` under `A B`). -/
theorem setHeader_case_counterexample :
    lastValue (fun key => equalFoldASCII key (str "a b"))
        [(str "a b", str "1"), (str "A B", str "2")] = some (str "2") ∧
      CanonicalMIMEHeaderKey (str "a b") = str "a b" ∧
      GoMap.get
        (((New World.empty []).2.SetHeaderAll (New World.empty []).1
          [(str "a b", str "1"), (str "A B", str "2")]).1.headerOf
          (New World.empty []).2.header)
        (CanonicalMIMEHeaderKey (str "a b")) = some [str "1"] ∧
      GoMap.get
        (((New World.empty []).2.SetHeaderAll (New World.empty []).1
          [(str "a b", str "1"), (str "A B", str "2")]).1.headerOf
          (New World.empty []).2.header)
        (str "A B") = some [str "2"] := by
  decide


/-! ## Sorting keys -/

theorem strLe_total (a b : GoString) : strLe a b = true ∨ strLe b a = true := by
  induction a generalizing b with
  | nil => exact Or.inl rfl
  | cons x xs ih =>
    cases b with
    | nil => exact Or.inr rfl
    | cons y ys =>
      simp only [strLe, Bool.or_eq_true, decide_eq_true_eq, Bool.and_eq_true, beq_iff_eq]
      rcases Nat.lt_trichotomy x y with h | h | h
      · exact Or.inl (Or.inl h)
      · rcases ih ys with h2 | h2
        · exact Or.inl (Or.inr ⟨h, h2⟩)
        · exact Or.inr (Or.inr ⟨h.symm, h2⟩)
      · exact Or.inr (Or.inl h)

theorem strLe_trans (a b c : GoString) (h1 : strLe a b = true) (h2 : strLe b c = true) :
    strLe a c = true := by
  induction a generalizing b c with
  | nil => rfl
  | cons x xs ih =>
    cases b with
    | nil => simp [strLe] at h1
    | cons y ys =>
      cases c with
      | nil => simp [strLe] at h2
      | cons z zs =>
        simp only [strLe, Bool.or_eq_true, decide_eq_true_eq, Bool.and_eq_true,
          beq_iff_eq] at h1 h2 ⊢
        rcases h1 with h1 | ⟨h1, h1r⟩
        · rcases h2 with h2 | ⟨h2, _⟩
          · exact Or.inl (Nat.lt_trans h1 h2)
          · exact Or.inl (h2 ▸ h1)
        · rcases h2 with h2 | ⟨h2, h2r⟩
          · exact Or.inl (h1 ▸ h2)
          · exact Or.inr ⟨h1.trans h2, ih ys zs h1r h2r⟩

theorem strLe_antisymm (a b : GoString) (h1 : strLe a b = true) (h2 : strLe b a = true) :
    a = b := by
  induction a generalizing b with
  | nil =>
    cases b with
    | nil => rfl
    | cons y ys => simp [strLe] at h2
  | cons x xs ih =>
    cases b with
    | nil => simp [strLe] at h1
    | cons y ys =>
      simp only [strLe, Bool.or_eq_true, decide_eq_true_eq, Bool.and_eq_true,
        beq_iff_eq] at h1 h2
      rcases h1 with h1 | ⟨h1, h1r⟩
      · rcases h2 with h2 | ⟨h2, _⟩
        · exact absurd h1 (Nat.lt_asymm h2)
        · rw [h2] at h1
          exact absurd h1 (Nat.lt_irrefl _)
      · rcases h2 with h2 | ⟨_, h2r⟩
        · rw [h1] at h2
          exact absurd h2 (Nat.lt_irrefl _)
        · rw [h1, ih ys h1r h2r]

/-- Sorting does not depend on the order in which the keys were collected. -/
theorem sortKeys_perm (ks1 ks2 : List GoString) (hp : ks1.Perm ks2) :
    sortKeys ks1 = sortKeys ks2 := by
  haveI : IsTotal GoString (fun a b => strLe a b = true) := ⟨strLe_total⟩
  haveI : IsTrans GoString (fun a b => strLe a b = true) := ⟨strLe_trans⟩
  haveI : IsAntisymm GoString (fun a b => strLe a b = true) := ⟨strLe_antisymm⟩
  unfold sortKeys
  apply List.eq_of_perm_of_sorted (r := fun a b => strLe a b = true)
  · exact ((List.perm_insertionSort _ ks1).trans hp).trans (List.perm_insertionSort _ ks2).symm
  · exact List.sorted_insertionSort _ ks1
  · exact List.sorted_insertionSort _ ks2

/-! ## `Values.Encode` against the reference serialisation -/

/-- Two maps bind the same keys to the same values. -/
theorem GoMap.keys_perm_of_get {V : Type} (m1 m2 : GoMap V)
    (h1 : (GoMap.keys m1).Nodup) (h2 : (GoMap.keys m2).Nodup)
    (hget : ∀ k, GoMap.get m1 k = GoMap.get m2 k) : (GoMap.keys m1).Perm (GoMap.keys m2) := by
  rw [List.perm_ext_iff_of_nodup h1 h2]
  intro k
  constructor
  · intro hk
    obtain ⟨v, hv⟩ := GoMap.get_isSome_of_mem m1 k hk
    rw [hget] at hv
    exact GoMap.mem_keys_of_get m2 k v hv
  · intro hk
    obtain ⟨v, hv⟩ := GoMap.get_isSome_of_mem m2 k hk
    rw [← hget] at hv
    exact GoMap.mem_keys_of_get m1 k v hv

/-- The buffer after writing more `key=value` pieces, as `Values.Encode` does. -/
theorem encodeKey_eq (keyEscaped buf : GoString) (vs : List GoString) :
    encodeKey keyEscaped buf vs =
      (vs.map (fun v => keyEscaped ++ [61] ++ QueryEscape v)).foldl
        (fun b p => (if b.length > 0 then b ++ [38] else b) ++ p) buf := by
  induction vs generalizing buf with
  | nil => rfl
  | cons v rest ih =>
    simp only [encodeKey, List.map_cons, List.foldl_cons]
    rw [ih]
    simp [List.append_assoc]

theorem encodeKeys_eq (m : Values) (buf : GoString) (ks : List GoString) :
    encodeKeys m buf ks =
      (ks.flatMap (fun k => ((GoMap.get m k).getD []).map
        (fun v => QueryEscape k ++ [61] ++ QueryEscape v))).foldl
        (fun b p => (if b.length > 0 then b ++ [38] else b) ++ p) buf := by
  induction ks generalizing buf with
  | nil => rfl
  | cons k rest ih =>
    simp only [encodeKeys, List.flatMap_cons, List.foldl_append]
    rw [ih, encodeKey_eq]

/-- Writing non-empty pieces with `&` before each but the first is joining them
with `&`. -/
theorem foldl_pieces_eq_joinAmp (ps : List GoString) (hne : ∀ p ∈ ps, p ≠ []) (buf : GoString) :
    ps.foldl (fun b p => (if b.length > 0 then b ++ [38] else b) ++ p) buf =
      if buf = [] then joinAmp ps
      else if ps = [] then buf else buf ++ [38] ++ joinAmp ps := by
  induction ps generalizing buf with
  | nil =>
    by_cases hb : buf = [] <;> simp [hb, joinAmp]
  | cons p rest ih =>
    have hp : p ≠ [] := hne p (List.mem_cons_self _ _)
    have hrest : ∀ q ∈ rest, q ≠ [] := fun q hq => hne q (List.mem_cons_of_mem _ hq)
    simp only [List.foldl_cons]
    rw [ih hrest]
    by_cases hb : buf = []
    · subst hb
      simp only [List.length_nil, gt_iff_lt, Nat.lt_irrefl, if_false, List.nil_append, hp,
        if_true]
      cases rest with
      | nil => simp [joinAmp]
      | cons q qs => simp [joinAmp]
    · have hlen : buf.length > 0 := List.length_pos.mpr hb
      have hne2 : buf ++ [38] ++ p ≠ [] := by simp
      simp only [hlen, if_true, hne2, if_false, hb]
      cases rest with
      | nil => simp [joinAmp]
      | cons q qs => simp [joinAmp, List.append_assoc]

/-- The method `Values.Encode` on a map without repeated keys, whatever the
order of its `range`: the reference serialisation of any map with the same
bindings. -/
theorem Values.Encode_eq_serializeSorted (env : Env) (W : World) (m m2 : Values)
    (h1 : (GoMap.keys m).Nodup) (h2 : (GoMap.keys m2).Nodup)
    (hget : ∀ k, GoMap.get m k = GoMap.get m2 k) :
    (Values.Encode env W m).1 = serializeSorted m2 := by
  have hperm := GoMap.keys_perm_of_get m m2 h1 h2 hget
  unfold Values.Encode serializeSorted
  by_cases hm : m.length = 0
  · rw [if_pos hm]
    have hnil : m = [] := List.length_eq_zero.mp hm
    rw [hnil] at hperm
    simp only [GoMap.keys, List.map_nil] at hperm
    have hk2 : GoMap.keys m2 = [] := by
      simpa [GoMap.keys] using hperm.symm.eq_nil
    rw [hk2]
    rfl
  · rw [if_neg hm]
    simp only
    have hsort : sortKeys ((rangeMap env W m).1.map Prod.fst) = sortKeys (GoMap.keys m2) :=
      sortKeys_perm _ _ (((rangeMap_perm env W m).map Prod.fst).trans hperm)
    rw [hsort, encodeKeys_eq, foldl_pieces_eq_joinAmp]
    · simp only [if_true]
      congr 1
      apply List.flatMap_congr
      intro k _
      rw [hget]
    · intro p hp
      simp only [List.mem_flatMap, List.mem_map] at hp
      obtain ⟨k, _, v, _, hv⟩ := hp
      rw [← hv]
      simp


/-! ## The merge loop of `genQuery` against the reference map -/

theorem Values.Add_nodup (v : Values) (key value : GoString) (h : (GoMap.keys v).Nodup) :
    (GoMap.keys (Values.Add v key value)).Nodup := by
  unfold Values.Add
  rw [GoMap.keys_put]
  split
  · exact h
  · rename_i hk
    rw [List.nodup_append]
    refine ⟨h, List.nodup_singleton _, ?_⟩
    intro a ha1 ha2
    simp only [List.mem_singleton] at ha2
    exact hk (ha2 ▸ ha1)

theorem foldl_pairs_nodup (pairs : List (GoString × GoString)) (m : Values)
    (h : (GoMap.keys m).Nodup) :
    (GoMap.keys (pairs.foldl (fun m kv => Values.Add m kv.1 kv.2) m)).Nodup := by
  induction pairs generalizing m with
  | nil => exact h
  | cons p rest ih => exact ih _ (Values.Add_nodup m p.1 p.2 h)

theorem foldl_pairs_get (pairs : List (GoString × GoString)) (m : Values) (k : GoString) :
    GoMap.get (pairs.foldl (fun m kv => Values.Add m kv.1 kv.2) m) k =
      appendGet (GoMap.get m k) (sourceValues pairs k) := by
  induction pairs generalizing m with
  | nil => simp [sourceValues, appendGet]
  | cons p rest ih =>
    simp only [List.foldl_cons]
    rw [ih, valuesAdd_get]
    by_cases hk : p.1 = k
    · simp only [hk, if_true, appendGet_append]
      simp [sourceValues, List.filter, hk]
    · simp [sourceValues, List.filter, hk]

theorem foldl_values_nodup (key : GoString) (vs : List GoString) (m : Values)
    (h : (GoMap.keys m).Nodup) :
    (GoMap.keys (vs.foldl (fun acc value => Values.Add acc key value) m)).Nodup := by
  induction vs generalizing m with
  | nil => exact h
  | cons v rest ih => exact ih _ (Values.Add_nodup m key v h)

theorem addEntries_nodup (es : List (GoString × List GoString)) (m : Values)
    (h : (GoMap.keys m).Nodup) : (GoMap.keys (addEntries m es)).Nodup := by
  unfold addEntries
  induction es generalizing m with
  | nil => exact h
  | cons e rest ih => exact ih _ (foldl_values_nodup e.1 e.2 m h)

theorem addEntries_get (es : List (GoString × List GoString)) (m : Values) (k : GoString) :
    GoMap.get (addEntries m es) k = appendGet (GoMap.get m k) (valuesFor id es k) := by
  unfold addEntries
  exact get_foldl_entries Values.Add id (fun m key value k => valuesAdd_get m key value k) k es m

theorem goqueryValues_ok (env : Env) (p : Value) (pairs : List (GoString × GoString))
    (h : env.queryPairs p = .ok pairs) :
    goqueryValues env p = .ok (pairs.foldl (fun m kv => Values.Add m kv.1 kv.2) []) := by
  unfold goqueryValues
  rw [h]

/-- When every source converts to pairs, the loop of `genQuery` ends with a map
that binds each key to its values before the loop followed by the values of the
sources, in source order. -/
theorem mergeParams_ok (env : Env) (W : World) (urlValues : Values) (params : List Value)
    (sources : List (List (GoString × GoString)))
    (hsrc : List.Forall₂ (fun p src => env.queryPairs p = .ok src) params sources)
    (hnd : (GoMap.keys urlValues).Nodup) :
    ∃ merged W1, mergeParams env W urlValues params = (.ok merged, W1) ∧
      (GoMap.keys merged).Nodup ∧
      ∀ k, GoMap.get merged k =
        appendGet (GoMap.get urlValues k) (sources.flatMap (fun src => sourceValues src k)) := by
  induction hsrc generalizing W urlValues with
  | nil =>
    exact ⟨urlValues, W, rfl, hnd, fun k => by simp [appendGet]⟩
  | @cons p src params sources hp _ ih =>
    have hq := goqueryValues_ok env p src hp
    have hqnd := foldl_pairs_nodup src [] (by simp [GoMap.keys])
    obtain ⟨merged, W1, hm, hmnd, hmget⟩ :=
      ih (rangeMap env W (src.foldl (fun m kv => Values.Add m kv.1 kv.2) [])).2
        (addEntries urlValues (rangeMap env W (src.foldl (fun m kv => Values.Add m kv.1 kv.2) [])).1)
        (addEntries_nodup _ _ hnd)
    refine ⟨merged, W1, ?_, hmnd, ?_⟩
    · simp only [mergeParams, hq]
      exact hm
    · intro k
      rw [hmget, addEntries_get,
        valuesFor_perm id _ _ (rangeMap_perm env W _) hqnd (fun _ _ => rfl), foldl_pairs_get,
        appendGet_append, List.flatMap_cons]
      congr 1
      simp only [GoMap.get]
      cases hs : sourceValues src k with
      | nil => simp [appendGet]
      | cons v vs => simp [appendGet]

/-- The map that `url.ParseQuery` returns binds no key twice. -/
theorem ParseQuery_nodup (query : GoString) : (GoMap.keys (ParseQuery query).1).Nodup := by
  unfold ParseQuery
  have key : ∀ (segs : List GoString) (st : Values × Option GoError),
      (GoMap.keys st.1).Nodup → (GoMap.keys (segs.foldl parseSegment st).1).Nodup := by
    intro segs
    induction segs with
    | nil => exact fun _ h => h
    | cons seg rest ih =>
      intro st h
      simp only [List.foldl_cons]
      apply ih
      unfold parseSegment
      split
      · exact h
      · split
        · exact h
        · split
          · exact h
          · split
            · exact h
            · exact Values.Add_nodup _ _ _ h
  exact key _ _ (by simp [GoMap.keys])

/-! ## The reference map -/

theorem get_table (f : GoString → List GoString) (ks : List GoString) (k : GoString) :
    GoMap.get (ks.map (fun k => (k, f k))) k = if k ∈ ks then some (f k) else none := by
  induction ks with
  | nil => rfl
  | cons a rest ih =>
    by_cases ha : a = k
    · subst ha
      simp [GoMap.get]
    · have hne : ¬ k = a := fun h => ha h.symm
      simp only [List.map_cons, GoMap.get, ha, if_false, ih, List.mem_cons, hne, false_or]

theorem mergedMap_nodup (existing : Values) (sources : List (List (GoString × GoString))) :
    (GoMap.keys (mergedMap existing sources)).Nodup := by
  unfold mergedMap GoMap.keys
  rw [List.map_map]
  have : (Prod.fst ∘ fun k => (k, mergedValues existing sources k)) = id := rfl
  rw [this, List.map_id]
  exact List.nodup_dedup _

theorem sourceValues_eq_nil_iff (pairs : List (GoString × GoString)) (k : GoString) :
    sourceValues pairs k = [] ↔ k ∉ pairs.map Prod.fst := by
  unfold sourceValues
  rw [List.map_eq_nil_iff, List.filter_eq_nil_iff]
  simp only [decide_eq_true_eq, List.mem_map, not_exists, not_and]

theorem flatMap_sourceValues_eq_nil_iff (sources : List (List (GoString × GoString)))
    (k : GoString) :
    sources.flatMap (fun src => sourceValues src k) = [] ↔
      k ∉ sources.flatMap (fun src => src.map Prod.fst) := by
  rw [List.flatMap_eq_nil_iff]
  simp only [sourceValues_eq_nil_iff, List.mem_flatMap, not_exists, not_and]

/-- The reference map binds a key exactly as the loop of `genQuery` leaves it. -/
theorem mergedMap_get (existing : Values) (sources : List (List (GoString × GoString)))
    (k : GoString) :
    GoMap.get (mergedMap existing sources) k =
      appendGet (GoMap.get existing k) (sources.flatMap (fun src => sourceValues src k)) := by
  unfold mergedMap
  rw [get_table (mergedValues existing sources)]
  simp only [List.mem_dedup, List.mem_append]
  unfold appendGet mergedValues
  by_cases hs : sources.flatMap (fun src => sourceValues src k) = []
  · have hs2 := (flatMap_sourceValues_eq_nil_iff sources k).mp hs
    rw [if_pos hs, hs]
    by_cases he : k ∈ GoMap.keys existing
    · obtain ⟨v, hv⟩ := GoMap.get_isSome_of_mem existing k he
      simp [he, hv]
    · rw [GoMap.get_eq_none_of_not_mem existing k he]
      simp [he, hs2]
  · have hs2 : k ∈ sources.flatMap (fun src => src.map Prod.fst) := by
      by_contra hn
      exact hs ((flatMap_sourceValues_eq_nil_iff sources k).mpr hn)
    rw [if_neg hs]
    simp [hs2]


/-- Claim C2. For a URL whose raw query parses to the map `existing`, and query
sources that convert to the pair lists `sources`: `genQuery` succeeds and sets
the raw query to the key-sorted, percent-encoded serialisation of the reference
map, in which every key is bound to its existing values followed by the values
of the sources in call order; in particular each existing value list is kept as
a prefix. On `?c=3` with the sources `a=1` and `b=2` the result is
`a=1&b=2&c=3`. -/
theorem genQuery_merge (env : Env) (W : World) (reqURL : URL) (params : List Value)
    (existing : Values) (sources : List (List (GoString × GoString)))
    (hparse : ParseQuery reqURL.RawQuery = (existing, none))
    (hsrc : List.Forall₂ (fun p src => env.queryPairs p = .ok src) params sources) :
    (genQuery env W reqURL params).1 =
        .ok { reqURL with RawQuery := serializeSorted (mergedMap existing sources) } ∧
      (∀ k vs, GoMap.get existing k = some vs →
        GoMap.get (mergedMap existing sources) k =
          some (vs ++ sources.flatMap (fun src => sourceValues src k))) ∧
      (genQuery exampleEnv World.empty exampleURL [.ref 0, .ref 1]).1 =
        .ok { exampleURL with RawQuery := str "a=1&b=2&c=3" } := by
  have hnd : (GoMap.keys existing).Nodup := by
    have := ParseQuery_nodup reqURL.RawQuery
    rw [hparse] at this
    exact this
  obtain ⟨merged, W1, hm, hmnd, hmget⟩ := mergeParams_ok env W existing params sources hsrc hnd
  refine ⟨?_, ?_, rfl⟩
  · unfold genQuery
    rw [hparse]
    simp only [hm]
    rw [Values.Encode_eq_serializeSorted env W1 merged (mergedMap existing sources) hmnd
      (mergedMap_nodup existing sources)
      (fun k => by rw [hmget, mergedMap_get])]
  · intro k vs hk
    rw [mergedMap_get, hk]
    unfold appendGet
    split
    · rename_i h0
      rw [h0, List.append_nil]
    · rfl

/-- A run of claim C2: the raw query `c=3` parses, the values `ref 0` and
`ref 1` convert to the pairs `a=1` and `b=2`, and the reference serialisation is
`a=1&b=2&c=3`. -/
theorem genQuery_merge_witness :
    ParseQuery exampleURL.RawQuery = ([(str "c", [str "3"])], none) ∧
      List.Forall₂ (fun p src => exampleEnv.queryPairs p = .ok src) [.ref 0, .ref 1]
        [[(str "a", str "1")], [(str "b", str "2")]] ∧
      (genQuery exampleEnv World.empty exampleURL [.ref 0, .ref 1]).1 =
        .ok { exampleURL with
          RawQuery := serializeSorted (mergedMap [(str "c", [str "3"])]
            [[(str "a", str "1")], [(str "b", str "2")]]) } ∧
      serializeSorted (mergedMap [(str "c", [str "3"])]
        [[(str "a", str "1")], [(str "b", str "2")]]) = str "a=1&b=2&c=3" :=
  ⟨by decide, List.Forall₂.cons rfl (List.Forall₂.cons rfl List.Forall₂.nil),
    (genQuery_merge exampleEnv World.empty exampleURL [.ref 0, .ref 1]
      [(str "c", [str "3"])] [[(str "a", str "1")], [(str "b", str "2")]] (by decide)
      (List.Forall₂.cons rfl (List.Forall₂.cons rfl List.Forall₂.nil))).1,
    by decide⟩


/-! ## Resolution is a function of the builder -/

/-- The loop of `genQuery` on maps with the same bindings, in worlds that may
order their `range` loops differently: the same error, or maps with the same
bindings. -/
theorem mergeParams_det (env : Env) (params : List Value) (W W2 : World) (uv uv2 : Values)
    (h1 : (GoMap.keys uv).Nodup) (h2 : (GoMap.keys uv2).Nodup)
    (hget : ∀ k, GoMap.get uv k = GoMap.get uv2 k) :
    (∃ e, (mergeParams env W uv params).1 = .error e ∧
        (mergeParams env W2 uv2 params).1 = .error e) ∨
      (∃ m m2, (mergeParams env W uv params).1 = .ok m ∧
        (mergeParams env W2 uv2 params).1 = .ok m2 ∧
        (GoMap.keys m).Nodup ∧ (GoMap.keys m2).Nodup ∧
        ∀ k, GoMap.get m k = GoMap.get m2 k) := by
  induction params generalizing W W2 uv uv2 with
  | nil => exact Or.inr ⟨uv, uv2, rfl, rfl, h1, h2, hget⟩
  | cons p rest ih =>
    cases hq : goqueryValues env p with
    | error e =>
      left
      exact ⟨e, by simp only [mergeParams, hq], by simp only [mergeParams, hq]⟩
    | ok qv =>
      have hqnd : (GoMap.keys qv).Nodup := by
        unfold goqueryValues at hq
        split at hq
        · exact Except.noConfusion hq
        · simp only [Except.ok.injEq] at hq
          rw [← hq]
          exact foldl_pairs_nodup _ [] (by simp [GoMap.keys])
      have step := ih (rangeMap env W qv).2 (rangeMap env W2 qv).2
        (addEntries uv (rangeMap env W qv).1) (addEntries uv2 (rangeMap env W2 qv).1)
        (addEntries_nodup _ _ h1) (addEntries_nodup _ _ h2)
        (fun k => by
          rw [addEntries_get, addEntries_get,
            valuesFor_perm id _ _ (rangeMap_perm env W qv) hqnd (fun _ _ => rfl),
            valuesFor_perm id _ _ (rangeMap_perm env W2 qv) hqnd (fun _ _ => rfl), hget])
      simp only [mergeParams, hq]
      exact step

/-- The outcome of `genQuery` does not depend on the world. -/
theorem genQuery_det (env : Env) (W W2 : World) (reqURL : URL) (params : List Value) :
    (genQuery env W reqURL params).1 = (genQuery env W2 reqURL params).1 := by
  unfold genQuery
  cases hp : ParseQuery reqURL.RawQuery with
  | mk existing err =>
    cases err with
    | some e => rfl
    | none =>
      have hnd : (GoMap.keys existing).Nodup := by
        have := ParseQuery_nodup reqURL.RawQuery
        rw [hp] at this
        exact this
      simp only
      rcases mergeParams_det env params W W2 existing existing hnd hnd (fun _ => rfl) with
        ⟨e, ha, hb⟩ | ⟨m, m2, ha, hb, hm, hm2, hget⟩
      · cases hx : mergeParams env W existing params with
        | mk r Wr =>
          cases hy : mergeParams env W2 existing params with
          | mk r2 Wr2 =>
            rw [hx] at ha
            rw [hy] at hb
            simp only at ha hb
            subst ha
            subst hb
            rfl
      · cases hx : mergeParams env W existing params with
        | mk r Wr =>
          cases hy : mergeParams env W2 existing params with
          | mk r2 Wr2 =>
            rw [hx] at ha
            rw [hy] at hb
            simp only at ha hb
            subst ha
            subst hb
            simp only
            rw [Values.Encode_eq_serializeSorted env Wr m m2 hm hm2 hget,
              Values.Encode_eq_serializeSorted env Wr2 m2 m2 hm2 hm2 (fun _ => rfl)]


/-- The outcome of a deterministic body encoder, and what it writes, do not
depend on the world; nor does it touch the readers. -/
theorem encodeBody_det (env : Env) (W W2 : World) (body : Option Body)
    (hbody : deterministicBody body) :
    (encodeBody env W body).1 = (encodeBody env W2 body).1 ∧
      (encodeBody env W body).2.1 = (encodeBody env W2 body).2.1 ∧
      (encodeBody env W body).2.2.readers = W.readers := by
  cases body with
  | none => exact ⟨rfl, rfl, rfl⟩
  | some p =>
    cases p with
    | original r => exact False.elim hbody
    | file v a b => exact False.elim hbody
    | json v esc =>
      simp only [encodeBody, Body.Encode]
      cases env.jsonEncode esc v with
      | error e => exact ⟨rfl, rfl, rfl⟩
      | ok bytes => exact ⟨rfl, rfl, rfl⟩
    | form v =>
      simp only [encodeBody, Body.Encode]
      cases hq : goqueryValues env v with
      | error e => exact ⟨rfl, rfl, rfl⟩
      | ok values =>
        have hnd : (GoMap.keys values).Nodup := by
          unfold goqueryValues at hq
          split at hq
          · exact Except.noConfusion hq
          · simp only [Except.ok.injEq] at hq
            rw [← hq]
            exact foldl_pairs_nodup _ [] (by simp [GoMap.keys])
        have he1 := Values.Encode_eq_serializeSorted env W values values hnd hnd (fun _ => rfl)
        have he2 := Values.Encode_eq_serializeSorted env W2 values values hnd hnd (fun _ => rfl)
        have hr : (Values.Encode env W values).2.readers = W.readers := by
          unfold Values.Encode
          split <;> rfl
        simp only [he1, he2]
        cases hc : ioCopy ⟨[], none⟩ ⟨serializeSorted values, none⟩ with
        | mk wr err =>
          obtain ⟨dst, src⟩ := wr
          cases err with
          | some e => exact ⟨rfl, rfl, hr⟩
          | none => exact ⟨rfl, rfl, hr⟩

/-- The header finalisation gives the same request on the same request. -/
theorem finishHeaders_same (a b : Request) (ct : GoString) (h : a.same b) :
    (finishHeaders a ct).same (finishHeaders b ct) := by
  obtain ⟨h1, h2, h3, h4, h5, h6⟩ := h
  have hGet : Header.Get a.Header (str "User-Agent") = Header.Get b.Header (str "User-Agent") := by
    unfold Header.Get
    rw [h6]
  unfold finishHeaders
  rw [hGet]
  by_cases hua : Header.Get b.Header (str "User-Agent") = [] <;> by_cases hct : ct = []
  all_goals
    simp only [hua, hct, if_true, if_false, ne_eq, not_true_eq_false, not_false_eq_true]
    refine ⟨h1, h2, h3, h4, h5, ?_⟩
    intro k
    simp only [Header.Set, Header.Del, GoMap.get_put, GoMap.get_delete, h6]

theorem genRequest_sameHeap (env : Env) (W : World) (h : HttpClient) :
    W.sameHeap (h.genRequest env W).2 := by
  unfold HttpClient.genRequest
  split
  · exact W.sameHeap_refl
  · rename_i reqURL _
    have hq := genQuery_sameHeap env W reqURL (W.queryOf h.query)
    split
    · rename_i e W1 hg
      rw [hg] at hq
      exact hq
    · rename_i u1 W1 hg
      rw [hg] at hq
      have hb := encodeBody_sameHeap env W1 h.body
      split
      · rename_i e x W2 he
        rw [he] at hb
        exact World.sameHeap_trans hq hb
      · rename_i ct body W2 he
        rw [he] at hb
        split
        · exact World.sameHeap_trans hq hb
        · rename_i req0 _
          exact World.sameHeap_trans hq
            (World.sameHeap_trans hb (setHeaders_sameHeap env W2 req0 h.header))

/-- The readers are left alone by everything in `genRequest` but a raw body. -/
theorem genQuery_readers (env : Env) (W : World) (reqURL : URL) (params : List Value) :
    (genQuery env W reqURL params).2.readers = W.readers := by
  have key : ∀ (ps : List Value) (W : World) (uv : Values),
      (mergeParams env W uv ps).2.readers = W.readers := by
    intro ps
    induction ps with
    | nil => exact fun _ _ => rfl
    | cons p rest ih =>
      intro W uv
      unfold mergeParams
      split
      · rfl
      · rw [ih]
        rfl
  unfold genQuery
  split
  · rfl
  · rename_i uv _
    have hk := key params W uv
    split
    · rename_i e W1 hm
      rw [hm] at hk
      exact hk
    · rename_i m W1 hm
      rw [hm] at hk
      simp only
      unfold Values.Encode
      split
      · exact hk
      · exact hk


/-- The outcome of `genRequest`, step by step. -/
theorem genRequest_outcome (env : Env) (W : World) (h : HttpClient) :
    (h.genRequest env W).1 =
      match env.urlParse h.rawURL with
      | .error e => .error e
      | .ok reqURL =>
        match (genQuery env W reqURL (W.queryOf h.query)).1 with
        | .error e => .error e
        | .ok reqURL1 =>
          match (encodeBody env (genQuery env W reqURL (W.queryOf h.query)).2 h.body).1 with
          | .error e => .error e
          | .ok ct =>
            match NewRequest env h.method (env.urlString reqURL1)
                (encodeBody env (genQuery env W reqURL (W.queryOf h.query)).2 h.body).2.1.buf with
            | .error e => .error e
            | .ok req =>
              .ok (finishHeaders
                (setHeaders env
                  (encodeBody env (genQuery env W reqURL (W.queryOf h.query)).2 h.body).2.2
                  req h.header).1 ct) := by
  unfold HttpClient.genRequest
  cases env.urlParse h.rawURL with
  | error e => rfl
  | ok reqURL =>
    simp only
    rcases hg : genQuery env W reqURL (W.queryOf h.query) with ⟨r, W1⟩
    cases r with
    | error e => rfl
    | ok reqURL1 =>
      simp only
      rcases he : encodeBody env W1 h.body with ⟨r2, body, W2⟩
      cases r2 with
      | error e => rfl
      | ok ct =>
        simp only
        cases NewRequest env h.method (env.urlString reqURL1) body.buf with
        | error e => rfl
        | ok req => rfl

/-- Two resolutions of a builder with a well-formed header map and a
deterministic body, in worlds with the same memory, have the same outcome. -/
theorem genRequest_det (env : Env) (W W2 : World) (h : HttpClient)
    (hwf : W.headerWF h.header) (hbody : deterministicBody h.body) (hsame : W.sameHeap W2) :
    sameOutcome (h.genRequest env W).1 (h.genRequest env W2).1 := by
  rw [genRequest_outcome env W h, genRequest_outcome env W2 h, World.sameHeap_queryOf hsame]
  cases env.urlParse h.rawURL with
  | error e => exact rfl
  | ok reqURL =>
    simp only
    have hq1 := genQuery_sameHeap env W reqURL (W.queryOf h.query)
    have hq2 := genQuery_sameHeap env W2 reqURL (W.queryOf h.query)
    rw [genQuery_det env W2 W reqURL (W.queryOf h.query)]
    generalize (genQuery env W reqURL (W.queryOf h.query)).2 = Wq at hq1
    generalize (genQuery env W2 reqURL (W.queryOf h.query)).2 = Wq2 at hq2
    cases (genQuery env W reqURL (W.queryOf h.query)).1 with
    | error e => exact rfl
    | ok reqURL1 =>
      simp only
      obtain ⟨hd1, hd2, _⟩ := encodeBody_det env Wq2 Wq h.body hbody
      have hb1 := encodeBody_sameHeap env Wq h.body
      have hb2 := encodeBody_sameHeap env Wq2 h.body
      rw [hd1, hd2]
      generalize (encodeBody env Wq h.body).2.2 = Wb at hb1
      generalize (encodeBody env Wq2 h.body).2.2 = Wb2 at hb2
      cases (encodeBody env Wq h.body).1 with
      | error e => exact rfl
      | ok ct =>
        simp only
        cases hn : NewRequest env h.method (env.urlString reqURL1)
            (encodeBody env Wq h.body).2.1.buf with
        | error e => exact rfl
        | ok req =>
          simp only
          have hWb : W.sameHeap Wb := World.sameHeap_trans hq1 hb1
          have hWb2 : W.sameHeap Wb2 :=
            World.sameHeap_trans hsame (World.sameHeap_trans hq2 hb2)
          have hempty := NewRequest_header env _ _ _ req hn
          apply finishHeaders_same
          refine ⟨rfl, rfl, rfl, rfl, rfl, ?_⟩
          intro k
          rw [setHeaders_get env Wb req h.header k (World.sameHeap_headerWF hWb _ hwf) hempty,
            setHeaders_get env Wb2 req h.header k (World.sameHeap_headerWF hWb2 _ hwf) hempty,
            World.sameHeap_headerOf hWb, World.sameHeap_headerOf hWb2]

theorem genRequest_readers (env : Env) (W : World) (h : HttpClient)
    (hbody : deterministicBody h.body) : (h.genRequest env W).2.readers = W.readers := by
  unfold HttpClient.genRequest
  cases env.urlParse h.rawURL with
  | error e => rfl
  | ok reqURL =>
    simp only
    have hq := genQuery_readers env W reqURL (W.queryOf h.query)
    rcases hg : genQuery env W reqURL (W.queryOf h.query) with ⟨r, W1⟩
    rw [hg] at hq
    cases r with
    | error e => exact hq
    | ok reqURL1 =>
      simp only
      obtain ⟨_, _, hr⟩ := encodeBody_det env W1 W1 h.body hbody
      rcases he : encodeBody env W1 h.body with ⟨r2, body, W2⟩
      rw [he] at hr
      cases r2 with
      | error e => exact hr.trans hq
      | ok ct =>
        simp only
        cases NewRequest env h.method (env.urlString reqURL1) body.buf with
        | error e => exact hr.trans hq
        | ok req => exact hr.trans hq

/-- Claim C10. For a builder with a well-formed header map whose body is unset
or a JSON or form encoder: `genRequest` leaves the header map, the query sources
and the readers in memory as they were (the fields `method`, `rawURL` and `body`
of the builder are only read), and a second `genRequest` right after the first
has the same outcome: the same error, or a request with the same method, URL,
body bytes and header bindings. -/
theorem genRequest_repeatable (env : Env) (W : World) (h : HttpClient)
    (hwf : W.headerWF h.header) (hbody : deterministicBody h.body) :
    (h.genRequest env W).2.headerOf h.header = W.headerOf h.header ∧
      (h.genRequest env W).2.queryOf h.query = W.queryOf h.query ∧
      (h.genRequest env W).2.readers = W.readers ∧
      sameOutcome (h.genRequest env W).1 (h.genRequest env (h.genRequest env W).2).1 := by
  have hs := genRequest_sameHeap env W h
  exact ⟨World.sameHeap_headerOf hs _, World.sameHeap_queryOf hs _,
    genRequest_readers env W h hbody, genRequest_det env W _ h hwf hbody hs⟩


/-- A run of claim C10: the example builder with a JSON body has a well-formed
header map and a deterministic body, and two resolutions in a row give the same
outcome. -/
theorem genRequest_repeatable_witness :
    exampleJsonState.1.headerWF exampleJsonState.2.header ∧
      deterministicBody exampleJsonState.2.body ∧
      sameOutcome (exampleJsonState.2.genRequest exampleEnv exampleJsonState.1).1
        (exampleJsonState.2.genRequest exampleEnv
          (exampleJsonState.2.genRequest exampleEnv exampleJsonState.1).2).1 :=
  ⟨by unfold World.headerWF; decide, trivial,
    (genRequest_repeatable exampleEnv exampleJsonState.1 exampleJsonState.2
      (by unfold World.headerWF; decide) trivial).2.2.2⟩

/-- Why claim C10 leaves raw bodies out: the example builder, whose raw body
reads `x`, resolves to a request with the body `x` the first time and with an
empty body the second time, the reader being used up. -/
theorem original_body_is_read_once :
    ((exampleState.2.genRequest exampleEnv exampleState.1).1.toOption.map
        (fun req => req.Body)) = some (str "x") ∧
      ((exampleState.2.genRequest exampleEnv
        (exampleState.2.genRequest exampleEnv exampleState.1).2).1.toOption.map
        (fun req => req.Body)) = some [] := by
  decide


/-! ## Builders made through the API

Every builder that `New`, `SetHeader` and the fork produce has its memory
allocated and a well-formed header map; the fork starts with the headers and the
query sources of its origin. -/

theorem New_headerWF (W : World) (cfg : List Config) :
    (New W cfg).1.headerWF (New W cfg).2.header := by
  unfold World.headerWF
  simp [New, GoMap.keys]

theorem SetHeader_headerWF (W : World) (h : HttpClient) (key value : GoString)
    (hown : W.owns h) (hwf : W.headerWF h.header) :
    (h.SetHeader W key value).1.headerWF h.header := by
  obtain ⟨_, hview, _⟩ := SetHeader_spec W h key value hown
  unfold World.headerWF at hwf ⊢
  rw [← World.keys_headerOf] at hwf ⊢
  rw [hview]
  exact Header.Set_keys _ key value hwf.1 hwf.2

theorem GoMap.get_foldl_put {V : Type} (es : List (GoString × V)) (m : GoMap V) (k : GoString)
    (hnd : (GoMap.keys es).Nodup) :
    GoMap.get (es.foldl (fun acc e => GoMap.put acc e.1 e.2) m) k =
      match GoMap.get es k with
      | some v => some v
      | none => GoMap.get m k := by
  induction es generalizing m with
  | nil => rfl
  | cons e rest ih =>
    obtain ⟨a, b⟩ := e
    simp only [GoMap.keys, List.map_cons, List.nodup_cons] at hnd
    simp only [List.foldl_cons]
    rw [ih _ hnd.2, GoMap.get_put]
    by_cases ha : a = k
    · subst ha
      rw [GoMap.get_eq_none_of_not_mem rest a hnd.1]
      simp [GoMap.get]
    · simp only [ha, if_false, GoMap.get]

theorem GoMap.foldl_put_keys {V : Type} (P : GoString → Prop) (es : List (GoString × V))
    (m : GoMap V) (hnd : (GoMap.keys m).Nodup) (hm : ∀ k ∈ GoMap.keys m, P k)
    (hes : ∀ e ∈ es, P e.1) :
    (GoMap.keys (es.foldl (fun acc e => GoMap.put acc e.1 e.2) m)).Nodup ∧
      ∀ k ∈ GoMap.keys (es.foldl (fun acc e => GoMap.put acc e.1 e.2) m), P k := by
  induction es generalizing m with
  | nil => exact ⟨hnd, hm⟩
  | cons e rest ih =>
    simp only [List.foldl_cons]
    apply ih
    · rw [GoMap.keys_put]
      split
      · exact hnd
      · rename_i hk
        rw [List.nodup_append]
        refine ⟨hnd, List.nodup_singleton _, ?_⟩
        intro a ha1 ha2
        simp only [List.mem_singleton] at ha2
        exact hk (ha2 ▸ ha1)
    · intro k hk
      rw [GoMap.keys_put] at hk
      split at hk
      · exact hm k hk
      · simp only [List.mem_append, List.mem_singleton] at hk
        rcases hk with hk | hk
        · exact hm k hk
        · rw [hk]
          exact hes e (List.mem_cons_self _ _)
    · exact fun x hx => hes x (List.mem_cons_of_mem _ hx)

theorem GoMap.get_perm {V : Type} (es m : GoMap V) (hp : es.Perm m)
    (hnd : (GoMap.keys m).Nodup) (k : GoString) : GoMap.get es k = GoMap.get m k := by
  have hnd2 : (GoMap.keys es).Nodup := (hp.map Prod.fst).nodup_iff.mpr hnd
  have h := hp.filter (fun e => decide (e.1 = k))
  rw [GoMap.filter_key es k hnd2, GoMap.filter_key m k hnd] at h
  cases h1 : GoMap.get es k with
  | none =>
    cases h2 : GoMap.get m k with
    | none => rfl
    | some v =>
      rw [h1, h2] at h
      simp at h
  | some u =>
    cases h2 : GoMap.get m k with
    | none =>
      rw [h1, h2] at h
      simp at h
    | some v =>
      rw [h1, h2] at h
      simp only [Option.map_some', Option.toList_some, List.perm_singleton, List.cons.injEq,
        Prod.mk.injEq, true_and, and_true] at h
      rw [h]

theorem GoMap.get_map {V U : Type} (g : V → U) (m : GoMap V) (k : GoString) :
    GoMap.get (m.map (fun e => (e.1, g e.2))) k = (GoMap.get m k).map g := by
  induction m with
  | nil => rfl
  | cons e rest ih =>
    obtain ⟨a, b⟩ := e
    by_cases ha : a = k
    · simp [GoMap.get, ha]
    · simp only [List.map_cons, GoMap.get, ha, if_false, ih]

/-- The header map of the fork: the entries of the origin, put one by one into
an empty map. -/
theorem fork_map (env : Env) (W : World) (h : HttpClient) (hown : W.owns h) :
    (h.New env W).1.maps[(h.New env W).2.header]? =
        some ((rangeMap env { W with maps := W.maps ++ [[]] } ((W.maps[h.header]?).getD [])).1.foldl
          (fun (m : GoMap Nat) (e : GoString × Nat) => GoMap.put m e.1 e.2) []) ∧
      (h.New env W).1.strs = W.strs := by
  obtain ⟨h1, _, _, _⟩ := hown
  generalize hW2 : ({ W with
      ranges := W.ranges + 1
      maps := (W.maps ++ [[]]).set W.maps.length
        ((rangeMap env { W with maps := W.maps ++ [[]] }
          (((W.maps ++ [[]])[h.header]?).getD [])).1.foldl
          (fun (m : GoMap Nat) (e : GoString × Nat) => GoMap.put m e.1 e.2) []) } : World) = W2
  have hnew : (h.New env W).1 = (appendValues env W2 ⟨0, 0, 0⟩ (W2.queryOf h.query)).1 := by
    rw [← hW2]
    rfl
  have hhdr : (h.New env W).2.header = W.maps.length := rfl
  obtain ⟨_, _, e3, e4⟩ := appendValues_empty env W2 (W2.queryOf h.query)
  rw [hnew, hhdr, e3, e4, ← hW2]
  simp only
  rw [List.getElem?_set_self (by simp), List.getElem?_append_left h1]
  refine ⟨?_, ?_⟩ <;> first | rfl | trivial

theorem fork_headerWF (env : Env) (W : World) (h : HttpClient) (hown : W.owns h)
    (hwf : W.headerWF h.header) : (h.New env W).1.headerWF (h.New env W).2.header := by
  obtain ⟨hmap, _⟩ := fork_map env W h hown
  unfold World.headerWF
  rw [hmap]
  simp only [Option.getD_some]
  apply GoMap.foldl_put_keys (fun k => CanonicalMIMEHeaderKey k = k)
  · simp [GoMap.keys]
  · simp [GoMap.keys]
  · intro e he
    exact hwf.2 e.1 (List.mem_map_of_mem Prod.fst ((rangeMap_perm env _ _).subset he))

/-- The slice that `append([]interface{}{}, xs...)` returns holds `xs`. -/
theorem appendValues_empty_queryOf (env : Env) (W : World) (xs : List Value) :
    (appendValues env W ⟨0, 0, 0⟩ xs).1.queryOf (appendValues env W ⟨0, 0, 0⟩ xs).2 = xs := by
  unfold appendValues
  by_cases hx : xs = []
  · rw [if_pos hx, hx]
    simp [World.queryOf]
  · rw [if_neg hx]
    have hpos : 0 < xs.length := List.length_pos.mpr hx
    have hfit : ¬ (0 + xs.length ≤ 0) := by omega
    rw [if_neg hfit]
    simp [World.queryOf]

/-- The fork starts with the headers and the query sources of its origin. -/
theorem fork_copies (env : Env) (W : World) (h : HttpClient) (hown : W.owns h)
    (hwf : W.headerWF h.header) :
    (∀ k, GoMap.get ((h.New env W).1.headerOf (h.New env W).2.header) k =
        GoMap.get (W.headerOf h.header) k) ∧
      (h.New env W).1.queryOf (h.New env W).2.query = W.queryOf h.query := by
  obtain ⟨hmap, hstrs⟩ := fork_map env W h hown
  constructor
  · intro k
    have hperm := rangeMap_perm env { W with maps := W.maps ++ [[]] }
      ((W.maps[h.header]?).getD [])
    have hnd2 : (GoMap.keys (rangeMap env { W with maps := W.maps ++ [[]] }
        ((W.maps[h.header]?).getD [])).1).Nodup := (hperm.map Prod.fst).nodup_iff.mpr hwf.1
    unfold World.headerOf
    rw [hmap, hstrs]
    simp only [Option.getD_some]
    rw [GoMap.get_map (fun a => (W.strs[a]?).getD []),
      GoMap.get_map (fun a => (W.strs[a]?).getD []), GoMap.get_foldl_put _ _ _ hnd2,
      GoMap.get_perm _ _ hperm hwf.1]
    cases GoMap.get ((W.maps[h.header]?).getD []) k <;> rfl
  · exact appendValues_empty_queryOf env _ _


theorem AddQueries_owns (env : Env) (W : World) (h : HttpClient) (params : List Value)
    (hown : W.owns h) (hwf : W.headerWF h.header) :
    (h.AddQueries env W params).1.owns (h.AddQueries env W params).2 ∧
      (h.AddQueries env W params).1.headerWF (h.AddQueries env W params).2.header := by
  obtain ⟨h1, h2, h3, h4⟩ := hown
  unfold HttpClient.AddQueries
  split
  · rename_i hlen
    have hx : params ≠ [] := List.length_pos.mp hlen
    unfold appendValues
    rw [if_neg hx]
    by_cases hfit : h.query.len + params.length ≤ h.query.cap
    · rw [if_pos hfit]
      refine ⟨⟨h1, h2, hfit, ?_⟩, hwf⟩
      rcases h4 with h4 | h4
      · exact Or.inl h4
      · right
        simp only [List.length_set]
        exact h4
    · rw [if_neg hfit]
      refine ⟨⟨h1, h2, Nat.le_max_left _ _, Or.inr ?_⟩, hwf⟩
      simp
  · exact ⟨⟨h1, h2, h3, h4⟩, hwf⟩

/-- The method `AddQueries` appends its arguments to the query sources of the
builder, when the array of the builder holds at least its length. -/
theorem AddQueries_queryOf (env : Env) (W : World) (h : HttpClient) (params : List Value)
    (hown : W.owns h) (hl : h.query.len ≤ ((W.arrs[h.query.ptr]?).getD []).length) :
    (h.AddQueries env W params).1.queryOf (h.AddQueries env W params).2.query =
      W.queryOf h.query ++ params := by
  obtain ⟨_, _, h3, h4⟩ := hown
  have htake : (List.take h.query.len ((W.arrs[h.query.ptr]?).getD []) ++ params).length =
      h.query.len + params.length := by
    rw [List.length_append, List.length_take, Nat.min_eq_left hl]
  unfold HttpClient.AddQueries
  split
  · rename_i hlen
    have hx : params ≠ [] := List.length_pos.mp hlen
    unfold appendValues
    rw [if_neg hx]
    by_cases hfit : h.query.len + params.length ≤ h.query.cap
    · rw [if_pos hfit]
      have hcap : h.query.cap ≠ 0 := by omega
      have hptr : h.query.ptr < W.arrs.length := h4.resolve_left hcap
      simp only [World.queryOf, List.getElem?_set_self hptr, Option.getD_some, writeAt]
      exact List.take_left' htake
    · rw [if_neg hfit]
      simp only [World.queryOf, List.getElem?_concat_length, Option.getD_some]
      exact List.take_left' htake
  · rename_i hlen
    have : params = [] := by
      cases params with
      | nil => rfl
      | cons a b => simp at hlen
    rw [this, List.append_nil]


/-! ## Calls on a builder and on its fork, in any order -/

theorem apart_symm (a b : HttpClient) (h : apart a.header a.query b) :
    apart b.header b.query a := by
  obtain ⟨h1, h2⟩ := h
  refine ⟨Ne.symm h1, ?_⟩
  rcases h2 with h2 | h2 | h2
  · exact Or.inr (Or.inl h2)
  · exact Or.inl h2
  · exact Or.inr (Or.inr (Ne.symm h2))

theorem AddQueries_owns_self (env : Env) (W : World) (h : HttpClient) (params : List Value)
    (hown : W.owns h) : (h.AddQueries env W params).1.owns (h.AddQueries env W params).2 := by
  obtain ⟨h1, h2, h3, h4⟩ := hown
  unfold HttpClient.AddQueries
  split
  · rename_i hlen
    have hx : params ≠ [] := List.length_pos.mp hlen
    unfold appendValues
    rw [if_neg hx]
    by_cases hfit : h.query.len + params.length ≤ h.query.cap
    · rw [if_pos hfit]
      refine ⟨h1, h2, hfit, ?_⟩
      rcases h4 with h4 | h4
      · exact Or.inl h4
      · right
        simp only [List.length_set]
        exact h4
    · rw [if_neg hfit]
      refine ⟨h1, h2, Nat.le_max_left _ _, Or.inr ?_⟩
      simp
  · exact ⟨h1, h2, h3, h4⟩

/-- One call on a builder whose memory is allocated leaves it allocated. -/
theorem apply_owns (env : Env) (W : World) (g : HttpClient) (op : Op) (hown : W.owns g) :
    (g.apply env W op).1.owns (g.apply env W op).2 := by
  cases op with
  | setHeader key value =>
    obtain ⟨a, _, c⟩ := SetHeader_spec W g key value hown
    simp only [HttpClient.apply]
    rw [a]
    exact c
  | setBasicAuth username password =>
    obtain ⟨a, _, c⟩ := SetHeader_spec W g (str "Authorization")
      (str "Basic " ++ genBasicAuth username password) hown
    simp only [HttpClient.apply, HttpClient.SetBasicAuth]
    rw [a]
    exact c
  | addQueries params => exact AddQueries_owns_self env W g params hown

/-- However calls on a builder and on its fork are interleaved, the memory of
both stays allocated and they keep sharing neither header map nor query array. -/
theorem applyBoth_apart (env : Env) (W : World) (h f : HttpClient) (pre : List (Bool × Op))
    (hh : W.owns h) (hf : W.owns f) (hhf : apart h.header h.query f) :
    (applyBoth env W h f pre).1.owns (applyBoth env W h f pre).2.1 ∧
      (applyBoth env W h f pre).1.owns (applyBoth env W h f pre).2.2 ∧
      apart (applyBoth env W h f pre).2.1.header (applyBoth env W h f pre).2.1.query
        (applyBoth env W h f pre).2.2 := by
  induction pre generalizing W h f with
  | nil => exact ⟨hh, hf, hhf⟩
  | cons c rest ih =>
    obtain ⟨target, op⟩ := c
    cases target with
    | false =>
      obtain ⟨_, _, c1, d1⟩ := apply_frame env W h f op hf hhf
      exact ih _ _ _ (apply_owns env W h op hh) c1 d1
    | true =>
      obtain ⟨_, _, c1, d1⟩ := apply_frame env W f h op hh (apart_symm h f hhf)
      exact ih _ _ _ c1 (apply_owns env W f op hf) (apart_symm _ _ d1)

/-- Claim C1. A builder `h` whose memory is allocated, and its fork
`f = h.New()`. The fork itself leaves the headers and the query sources of `h`
as they were. Then, after any calls `pre` of `SetHeader`, `SetBasicAuth` and
`AddQueries` made on `h` and on `f` in any order, any further sequence of such
calls on `f` leaves the headers (every name with its values) and the query
sources of `h` exactly as they were before that sequence, and any such sequence
on `h` leaves those of `f` exactly as they were. -/
theorem fork_no_aliasing (env : Env) (W : World) (h : HttpClient) (pre : List (Bool × Op))
    (ops : List Op) (hown : W.owns h) :
    ((h.New env W).1.headerOf h.header = W.headerOf h.header ∧
      (h.New env W).1.queryOf h.query = W.queryOf h.query) ∧
    (((afterFork env W h pre).2.2.applyAll env (afterFork env W h pre).1 ops).1.headerOf
        (afterFork env W h pre).2.1.header =
        (afterFork env W h pre).1.headerOf (afterFork env W h pre).2.1.header ∧
      ((afterFork env W h pre).2.2.applyAll env (afterFork env W h pre).1 ops).1.queryOf
        (afterFork env W h pre).2.1.query =
        (afterFork env W h pre).1.queryOf (afterFork env W h pre).2.1.query) ∧
    (((afterFork env W h pre).2.1.applyAll env (afterFork env W h pre).1 ops).1.headerOf
        (afterFork env W h pre).2.2.header =
        (afterFork env W h pre).1.headerOf (afterFork env W h pre).2.2.header ∧
      ((afterFork env W h pre).2.1.applyAll env (afterFork env W h pre).1 ops).1.queryOf
        (afterFork env W h pre).2.2.query =
        (afterFork env W h pre).1.queryOf (afterFork env W h pre).2.2.query) := by
  obtain ⟨a, b, c, d, _, f⟩ := fork_spec env W h hown
  obtain ⟨ih, iff, iap⟩ := applyBoth_apart env (h.New env W).1 h (h.New env W).2 pre c d f
  exact ⟨⟨a, b⟩, applyAll_frame env _ _ _ ops ih (apart_symm _ _ iap),
    applyAll_frame env _ _ _ ops iff iap⟩

/-- A run of claim C1 on a builder with three query sources in an array of
capacity four, whose memory is allocated: after the fork and then
`f.AddQueries(ref 7)` and `h.SetHeader("x", "1")`, the calls
`AddQueries(ref 8)` and `SetHeader("y", "2")` on the fork leave `h` as it was,
and the same calls on `h` leave the fork as it was. -/
theorem fork_no_aliasing_witness :
    exampleSpareState.1.owns exampleSpareState.2 ∧
    (((afterFork exampleEnv exampleSpareState.1 exampleSpareState.2
          exampleInterleaved).2.2.applyAll exampleEnv
          (afterFork exampleEnv exampleSpareState.1 exampleSpareState.2 exampleInterleaved).1
          exampleCalls).1.headerOf
        (afterFork exampleEnv exampleSpareState.1 exampleSpareState.2
          exampleInterleaved).2.1.header =
        (afterFork exampleEnv exampleSpareState.1 exampleSpareState.2
          exampleInterleaved).1.headerOf
          (afterFork exampleEnv exampleSpareState.1 exampleSpareState.2
            exampleInterleaved).2.1.header ∧
      ((afterFork exampleEnv exampleSpareState.1 exampleSpareState.2
          exampleInterleaved).2.2.applyAll exampleEnv
          (afterFork exampleEnv exampleSpareState.1 exampleSpareState.2 exampleInterleaved).1
          exampleCalls).1.queryOf
        (afterFork exampleEnv exampleSpareState.1 exampleSpareState.2
          exampleInterleaved).2.1.query =
        (afterFork exampleEnv exampleSpareState.1 exampleSpareState.2
          exampleInterleaved).1.queryOf
          (afterFork exampleEnv exampleSpareState.1 exampleSpareState.2
            exampleInterleaved).2.1.query) ∧
    (((afterFork exampleEnv exampleSpareState.1 exampleSpareState.2
          exampleInterleaved).2.1.applyAll exampleEnv
          (afterFork exampleEnv exampleSpareState.1 exampleSpareState.2 exampleInterleaved).1
          exampleCalls).1.headerOf
        (afterFork exampleEnv exampleSpareState.1 exampleSpareState.2
          exampleInterleaved).2.2.header =
        (afterFork exampleEnv exampleSpareState.1 exampleSpareState.2
          exampleInterleaved).1.headerOf
          (afterFork exampleEnv exampleSpareState.1 exampleSpareState.2
            exampleInterleaved).2.2.header ∧
      ((afterFork exampleEnv exampleSpareState.1 exampleSpareState.2
          exampleInterleaved).2.1.applyAll exampleEnv
          (afterFork exampleEnv exampleSpareState.1 exampleSpareState.2 exampleInterleaved).1
          exampleCalls).1.queryOf
        (afterFork exampleEnv exampleSpareState.1 exampleSpareState.2
          exampleInterleaved).2.2.query =
        (afterFork exampleEnv exampleSpareState.1 exampleSpareState.2
          exampleInterleaved).1.queryOf
          (afterFork exampleEnv exampleSpareState.1 exampleSpareState.2
            exampleInterleaved).2.2.query) :=
  ⟨by unfold World.owns; decide,
    (fork_no_aliasing exampleEnv exampleSpareState.1 exampleSpareState.2 exampleInterleaved
      exampleCalls (by unfold World.owns; decide)).2⟩

/-- The run `f.AddQueries(ref 7)`, then `h.AddQueries(ref 8)`, after the fork of
the builder with three sources in an array of capacity four: the fork ends
with the sources `0, 1, 2, 7` and the origin with `0, 1, 2, 8`. -/
theorem fork_then_both_append :
    (afterFork exampleEnv exampleSpareState.1 exampleSpareState.2
        [(true, .addQueries [.ref 7]), (false, .addQueries [.ref 8])]).1.queryOf
        (afterFork exampleEnv exampleSpareState.1 exampleSpareState.2
          [(true, .addQueries [.ref 7]), (false, .addQueries [.ref 8])]).2.2.query =
        [.ref 0, .ref 1, .ref 2, .ref 7] ∧
      (afterFork exampleEnv exampleSpareState.1 exampleSpareState.2
        [(true, .addQueries [.ref 7]), (false, .addQueries [.ref 8])]).1.queryOf
        (afterFork exampleEnv exampleSpareState.1 exampleSpareState.2
          [(true, .addQueries [.ref 7]), (false, .addQueries [.ref 8])]).2.1.query =
        [.ref 0, .ref 1, .ref 2, .ref 8] := by
  decide

/-- The memory model does tell a shared array from a copied one: for a second
builder that keeps the query slice of that builder itself (a plain struct
copy), the same two calls leave the sources `0, 1, 2, 8` in the copy, whose own
`ref 7` is overwritten. -/
theorem shared_query_array_is_visible :
    (applyBoth exampleEnv exampleSpareState.1 exampleSpareState.2 exampleSpareState.2
        [(true, .addQueries [.ref 7]), (false, .addQueries [.ref 8])]).1.queryOf
        (applyBoth exampleEnv exampleSpareState.1 exampleSpareState.2 exampleSpareState.2
          [(true, .addQueries [.ref 7]), (false, .addQueries [.ref 8])]).2.2.query =
      [.ref 0, .ref 1, .ref 2, .ref 8] := by
  decide


end http_client
